import Mathlib

/-!
Verification development for the span-to-metrics streaming aggregation engine of
opentelemetry-collector-contrib and for the mark-and-sweep timeseries storage of
the metric-start-time processor.

Part A embeds `processor/metricstarttimeprocessor/internal/datapointstorage/timeseries_map.go`
(the functions `TimeseriesMap.Get` and `TimeseriesMap.GC`).

Part B models the span-to-metrics aggregation engine.  The engine's
implementation is not part of the source tree (only its test suite is), so the
definitions are modelled from the design specification, corroborated by the
tests; each such definition is marked `Modelled from the spec:`.
-/

set_option autoImplicit false
set_option linter.unusedSectionVars false

namespace OtelContrib

/-! ## Generic association-list operations (Go map semantics) -/

/-- Association-list lookup, modelling Go map indexing `v, ok := m[k]`. -/
def assocFind {κ β : Type} [DecidableEq κ] (k : κ) : List (κ × β) → Option β
  | [] => none
  | p :: t => if p.1 = k then some p.2 else assocFind k t

/-- Association-list insert-or-replace, modelling Go map assignment `m[k] = v`. -/
def assocPut {κ β : Type} [DecidableEq κ] (k : κ) (v : β) : List (κ × β) → List (κ × β)
  | [] => [(k, v)]
  | p :: t => if p.1 = k then (k, v) :: t else p :: assocPut k v t

/-- Remove every entry stored under key `k`, modelling Go `delete(m, k)`. -/
def assocEraseAll {κ β : Type} [DecidableEq κ] (k : κ) (l : List (κ × β)) : List (κ × β) :=
  l.filter fun p => decide (p.1 ≠ k)

/-- The keys of an association list, in storage order. -/
def keysOf {κ β : Type} (l : List (κ × β)) : List κ := l.map Prod.fst

/-! ## Part A — datapointstorage/timeseries_map.go (embedded from the source) -/

/-- pmetric.AggregationTemporality as consulted by `TimeseriesMap.Get`;
the zero value is `unspecified`. -/
inductive AggTemporality
  | unspecified
  | delta
  | cumulative
deriving DecidableEq, Repr

/-- The pmetric metric-type tag switched on by `TimeseriesMap.Get` (lines 54-65). -/
inductive MetricType
  | empty
  | gauge
  | sum
  | histogram
  | exponentialHistogram
  | summary
deriving DecidableEq, Repr

/-- The parts of a `pmetric.Metric` read by `TimeseriesMap.Get`: its name, its
type tag, and the aggregation temporality of its (exponential) histogram data. -/
structure Metric where
  name : String
  type : MetricType
  histogramAggTemporality : AggTemporality
  exponentialHistogramAggTemporality : AggTemporality
deriving DecidableEq, Repr

/-- timeseries_map.go `TimeseriesKey`.  `pdatautil.MapHash` of the attribute map
(an opaque 16-byte value) is modelled injectively as the byte list itself. -/
structure TimeseriesKey where
  name : String
  attributes : List Nat
  aggTemporality : AggTemporality
deriving DecidableEq, Repr

/-- timeseries_map.go `TimeseriesInfo`.  Only the `Mark` flag is represented:
the data-point payload fields (`Number`, `Histogram`, `ExponentialHistogram`,
`Summary`) are never read or written by `Get` or `GC` beyond zero
initialisation, so they do not affect the properties proved here. -/
structure TimeseriesInfo where
  mark : Bool
deriving DecidableEq, Repr

/-- timeseries_map.go `TimeseriesMap` (the embedded `sync.RWMutex` guards
concurrent access and has no sequential content). -/
structure TimeseriesMap where
  mark : Bool
  tsiMap : List (TimeseriesKey × TimeseriesInfo)
deriving DecidableEq, Repr

/-- timeseries_map.go `Get`, lines 49-65: the key built from the metric name,
the attribute hash, and — for the two histogram types — the aggregation
temporality (zero value otherwise). -/
def buildTsKey (metric : Metric) (kv : List Nat) : TimeseriesKey :=
  { name := metric.name,
    attributes := kv,
    aggTemporality :=
      match metric.type with
      | .histogram => metric.histogramAggTemporality
      | .exponentialHistogram => metric.exponentialHistogramAggTemporality
      | _ => .unspecified }

/-- timeseries_map.go `func (tsm *TimeseriesMap) Get` (lines 46-75): marks the
map, looks the key up, inserts a fresh zero entry when absent, marks the entry,
and returns it together with whether the key previously existed. -/
def TimeseriesMap.get (tsm : TimeseriesMap) (metric : Metric) (kv : List Nat) :
    (TimeseriesInfo × Bool) × TimeseriesMap :=
  let key := buildTsKey metric kv
  match assocFind key tsm.tsiMap with
  | some tsi =>
      (({ tsi with mark := true }, true),
       { mark := true, tsiMap := assocPut key { tsi with mark := true } tsm.tsiMap })
  | none =>
      (({ mark := true }, false),
       { mark := true, tsiMap := assocPut key { mark := true } tsm.tsiMap })

/-- timeseries_map.go `func (tsm *TimeseriesMap) GC` (lines 78-89): delete every
unmarked entry, clear the mark of every surviving entry, clear the map's mark. -/
def TimeseriesMap.gc (tsm : TimeseriesMap) : TimeseriesMap :=
  { mark := false,
    tsiMap :=
      (tsm.tsiMap.filter fun p => p.2.mark).map fun p => (p.1, { p.2 with mark := false }) }

/-! ## Part B — the aggregation engine (modelled from the spec) -/

/-- The null byte used as the Series Key separator. -/
def nulChar : Char := Char.ofNat 0

/-- The null-byte separator as a one-character string. -/
def nulSep : String := String.mk [nulChar]

/-- Modelled from the spec: the Series Key is "an ordered, null-byte-joined
concatenation" of its components (missing connector code: the key builder). -/
def joinKey : List String → String
  | [] => ""
  | [s] => s
  | s :: t :: r => s ++ nulSep ++ joinKey (t :: r)

/-- Character-level image of `joinKey`, used to reason about collisions. -/
def joinChars : List (List Char) → List Char
  | [] => []
  | [s] => s
  | s :: t :: r => s ++ nulChar :: joinChars (t :: r)

/-- A string that does not contain the null separator byte. -/
def nulFree (s : String) : Prop := nulChar ∉ s.data

instance (s : String) : Decidable (nulFree s) := by
  unfold nulFree
  infer_instance

/-- Modelled from the spec: a Dimension is "a name plus optional default value"
(missing connector code: `pdatautil.Dimension`, whose optional default is the
`Value` field). -/
structure Dimension where
  name : String
  value : Option String
deriving DecidableEq, Repr

/-- Modelled from the spec: the span fields the engine consumes — name, kind
string, status-code string, attributes, start/end timestamps and the trace id
used for exemplars.  Attribute values are modelled as strings (the key builder
appends their string rendering). -/
structure SpanRec where
  name : String
  kind : String
  statusCode : String
  attributes : List (String × String)
  startTimestamp : Int
  endTimestamp : Int
  traceId : Nat
deriving DecidableEq, Repr

/-- Modelled from the spec: dimension resolution, "resolved per span by
precedence span-attribute > resource-attribute > configured default > omitted". -/
def resolveDimension (d : Dimension) (spanAttrs resAttrs : List (String × String)) :
    Option String :=
  match assocFind d.name spanAttrs with
  | some v => some v
  | none =>
      match assocFind d.name resAttrs with
      | some v => some v
      | none => d.value

/-- Modelled from the spec: the ordered component sequence of a Series Key —
"service name, span name, span kind, status code, followed by resolved optional
dimension values in configured order", an unresolved dimension contributing no
slot at all. -/
def keyComponents (serviceName : String) (span : SpanRec) (dims : List Dimension)
    (resAttrs : List (String × String)) : List String :=
  [serviceName, span.name, span.kind, span.statusCode] ++
    dims.filterMap fun d => resolveDimension d span.attributes resAttrs

/-- Modelled from the spec: the Key Builder (missing connector code:
`connectorImp.buildKey`) — the null-byte-joined concatenation of the ordered
component sequence. -/
def buildKey (serviceName : String) (span : SpanRec) (dims : List Dimension)
    (resAttrs : List (String × String)) : String :=
  joinKey (keyComponents serviceName span dims resAttrs)

/-- Aggregation temporality of the engine. -/
inductive Temporality
  | cumulative
  | delta
deriving DecidableEq, Repr

/-- Modelled from the spec: the configuration fields of the engine exercised by
the claims — temporality, per-scope cardinality limit (0 = unlimited), explicit
histogram bucket upper bounds, exemplar enablement and the dimension list. -/
structure EngineConfig where
  temporality : Temporality
  aggregationCardinalityLimit : Nat
  bounds : List Int
  exemplarsEnabled : Bool
  dimensions : List Dimension
deriving DecidableEq, Repr

/-- Modelled from the spec: per-series aggregation state — the monotonic call
count, the duration sum, the explicit histogram bucket counts, the exemplar
store (trace ids recorded since the last flush) and whether the series has
already been emitted once ("first flush after creation emits 0"). -/
structure SeriesData where
  callCount : Nat
  durationSum : Int
  bucketCounts : List Nat
  exemplars : List Nat
  initialised : Bool
deriving DecidableEq, Repr

/-- A fresh series: all counters zero, `bounds.length + 1` empty buckets. -/
def newSeries (cfg : EngineConfig) : SeriesData :=
  { callCount := 0,
    durationSum := 0,
    bucketCounts := List.replicate (cfg.bounds.length + 1) 0,
    exemplars := [],
    initialised := false }

/-- Modelled from the spec: explicit bucketing — "an incoming value falls in the
first bucket whose upper bound exceeds it (last bucket catches everything above
the highest boundary)". -/
def bucketIdx : List Int → Int → Nat
  | [], _ => 0
  | b :: t, v => if v < b then 0 else bucketIdx t v + 1

/-- Increment the counter at the given index. -/
def incrAt : List Nat → Nat → List Nat
  | [], _ => []
  | c :: t, 0 => (c + 1) :: t
  | c :: t, n + 1 => c :: incrAt t n

/-- Modelled from the spec: record one call of the given duration into a series
— `count` increments by one, the sum accumulates, the bucket of the duration
increments, and the trace id is sampled as an exemplar when enabled. -/
def recordInto (cfg : EngineConfig) (d : SeriesData) (duration : Int) (traceId : Nat) :
    SeriesData :=
  { d with
    callCount := d.callCount + 1,
    durationSum := d.durationSum + duration,
    bucketCounts := incrAt d.bucketCounts (bucketIdx cfg.bounds duration),
    exemplars := if cfg.exemplarsEnabled then d.exemplars ++ [traceId] else d.exemplars }

/-- Modelled from the spec: an Aggregation Scope's per-series state — the map
from Series Key to series state plus the scope's single overflow series. -/
structure ScopeState where
  tracked : List (String × SeriesData)
  overflow : Option SeriesData
deriving DecidableEq, Repr

/-- The scope created on first use of a resource fingerprint. -/
def emptyScope : ScopeState := { tracked := [], overflow := none }

/-- Modelled from the spec: the Cardinality Limiter (§4.2) — an existing key is
updated in place; a new key is created only while under the configured limit
(0 = unlimited); otherwise the call is routed to the scope's shared overflow
series.  Existing keys are never evicted. -/
def recordCall (cfg : EngineConfig) (σ : ScopeState) (k : String) (duration : Int)
    (traceId : Nat) : ScopeState :=
  match assocFind k σ.tracked with
  | some d =>
      { σ with tracked := assocPut k (recordInto cfg d duration traceId) σ.tracked }
  | none =>
      if cfg.aggregationCardinalityLimit = 0 ∨
          σ.tracked.length < cfg.aggregationCardinalityLimit then
        { σ with
          tracked := σ.tracked ++ [(k, recordInto cfg (newSeries cfg) duration traceId)] }
      else
        { σ with
          overflow :=
            some (recordInto cfg (σ.overflow.getD (newSeries cfg)) duration traceId) }

/-- Modelled from the spec: synchronous single-span ingestion into a scope.  The
engine "does not validate span timing"; the span is keyed by the Key Builder,
its (possibly negative or zero) duration is recorded anyway, and the call
always returns success. -/
def consumeSpan (cfg : EngineConfig) (σ : ScopeState) (serviceName : String)
    (resAttrs : List (String × String)) (span : SpanRec) : Except String ScopeState :=
  Except.ok
    (recordCall cfg σ (buildKey serviceName span cfg.dimensions resAttrs)
      (span.endTimestamp - span.startTimestamp) span.traceId)

/-- Ingest a batch of calls, each given as (Series Key, duration, trace id). -/
def ingestCalls (cfg : EngineConfig) (σ : ScopeState) :
    List (String × Int × Nat) → ScopeState
  | [] => σ
  | c :: t => ingestCalls cfg (recordCall cfg σ c.1 c.2.1 c.2.2) t

/-- The attribute marking the overflow series: "overflow=true". -/
def overflowAttr : String × String := ("otel.metric.overflow", "true")

/-- An emitted data point: its attributes, its call-count value, and its
exemplar (the engine attaches "exactly one exemplar per data point if enabled
and available"). -/
structure DataPoint where
  attrs : List (String × String)
  value : Nat
  exemplar : Option Nat
deriving DecidableEq, Repr

/-- Modelled from the spec: the value a flush reports for a series — the first
emission after creation reports 0, later emissions report the call count. -/
def emitValue (d : SeriesData) : Nat :=
  if d.initialised then d.callCount else 0

/-- Modelled from the spec: per-series state after a flush — the exemplar store
is cleared ("exemplars never survive past the flush that emitted them") and the
series is marked emitted; delta temporality additionally resets the counters. -/
def afterFlush (cfg : EngineConfig) (d : SeriesData) : SeriesData :=
  match cfg.temporality with
  | .cumulative => { d with exemplars := [], initialised := true }
  | .delta => { newSeries cfg with initialised := true }

/-- Modelled from the spec: flush materialisation of one scope — one data point
per tracked series (in creation order) plus one for the overflow series when it
exists, each carrying at most one exemplar; the scope state is retained
(cumulative) or reset (delta) with exemplars cleared either way. -/
def flushScope (cfg : EngineConfig) (σ : ScopeState) : List DataPoint × ScopeState :=
  ((σ.tracked.map fun p =>
      { attrs := [("series", p.1)], value := emitValue p.2,
        exemplar := p.2.exemplars.head? }) ++
    (match σ.overflow with
     | some d => [{ attrs := [overflowAttr], value := emitValue d,
                    exemplar := d.exemplars.head? }]
     | none => []),
   { tracked := σ.tracked.map fun p => (p.1, afterFlush cfg p.2),
     overflow := σ.overflow.map (afterFlush cfg) })

/-- Total number of calls recorded in a scope (tracked series plus overflow). -/
def totalCalls (σ : ScopeState) : Nat :=
  (σ.tracked.map fun p => p.2.callCount).sum +
    ((σ.overflow.map fun d => d.callCount).getD 0)

/-- Total duration recorded in a scope (tracked series plus overflow). -/
def totalDuration (σ : ScopeState) : Int :=
  (σ.tracked.map fun p => p.2.durationSum).sum +
    ((σ.overflow.map fun d => d.durationSum).getD 0)

/-- Calls recorded in the scope's overflow series. -/
def overflowCount (σ : ScopeState) : Nat :=
  ((σ.overflow.map fun d => d.callCount).getD 0)

/-! ### LRU caches (Resource Aggregation Cache, Delta Timestamp Cache) -/

/-- Modelled from the spec: a capacity-bounded cache with least-recently-used
eviction; the least-recently-touched entry is stored first. -/
structure LRU (κ β : Type) where
  cap : Nat
  entries : List (κ × β)
deriving Repr

/-- Touch-or-insert: the entry is (re)placed in the most-recent position; when
the capacity (if positive) is exceeded the least-recently-touched entry is
evicted. -/
def LRU.put {κ β : Type} [DecidableEq κ] (c : LRU κ β) (k : κ) (v : β) : LRU κ β :=
  let es := assocEraseAll k c.entries ++ [(k, v)]
  { c with entries := if 0 < c.cap ∧ c.cap < es.length then es.tail else es }

/-- Cache lookup (does not touch the entry). -/
def LRU.lookup {κ β : Type} [DecidableEq κ] (c : LRU κ β) (k : κ) : Option β :=
  assocFind k c.entries

/-- Modelled from the spec: `getOrCreate(fingerprint) -> scope` — return the
existing entry (touching it) or insert the fresh one, evicting per LRU. -/
def LRU.getOrCreate {κ β : Type} [DecidableEq κ] (c : LRU κ β) (k : κ) (fresh : β) :
    β × LRU κ β :=
  match assocFind k c.entries with
  | some b => (b, c.put k b)
  | none => (fresh, c.put k fresh)

/-- An empty cache of the given capacity. -/
def emptyLRU (κ β : Type) (cap : Nat) : LRU κ β := { cap := cap, entries := [] }

/-- Modelled from the spec: the Resource Fingerprint — "a hash over either the
full resource attribute set or a configured allow-list subset"; the hash is
modelled injectively as the (filtered) attribute list itself. -/
def fingerprint (allowList : List String) (attrs : List (String × String)) :
    List (String × String) :=
  match allowList with
  | [] => attrs
  | _ => attrs.filter fun p => allowList.contains p.1

/-- The Resource Aggregation Cache: fingerprints to aggregation scopes. -/
def getOrCreateScope (c : LRU (List (String × String)) ScopeState)
    (allowList : List String) (resAttrs : List (String × String)) :
    ScopeState × LRU (List (String × String)) ScopeState :=
  c.getOrCreate (fingerprint allowList resAttrs) emptyScope

/-- Ingest a sequence of cache keys, creating a fresh value for each miss. -/
def fillLRU {κ β : Type} [DecidableEq κ] (fresh : β) (c : LRU κ β) (ks : List κ) : LRU κ β :=
  ks.foldl (fun c k => (c.getOrCreate k fresh).2) c

/-- Modelled from the spec: emission of one delta-temporality data point for a
key at time `now` — "start-timestamp = previous cycle's timestamp for that key,
or now if first occurrence, timestamp = now" — and the Delta Timestamp Cache
update recording this cycle's timestamp. -/
def flushDeltaPoint (cache : LRU String Nat) (k : String) (now : Nat) :
    (Nat × Nat) × LRU String Nat :=
  (((cache.lookup k).getD now, now), cache.put k now)

/-- Modelled from the spec: the timestamp state of a cumulative scope — its
creation-or-last-reset time. -/
structure CumulativeScope where
  startTime : Nat
deriving DecidableEq, Repr

/-- A cumulative scope created (or reset) at time `t`. -/
def mkCumulativeScope (t : Nat) : CumulativeScope := { startTime := t }

/-- Modelled from the spec: emission of one cumulative-temporality data point —
"(start-timestamp = scope-creation-or-last-reset-time, timestamp = now) on
every emission"; the scope state is left untouched. -/
def flushCumulativePoint (s : CumulativeScope) (now : Nat) :
    (Nat × Nat) × CumulativeScope :=
  ((s.startTime, now), s)

/-! ### Flush-cycle iteration for the cumulative call-count claims -/

/-- The scope state after `j` rounds of (ingest one call with key `k`; flush),
starting from the empty scope. -/
def cumCycleState (cfg : EngineConfig) (k : String) (dur : Int) (tid : Nat) :
    Nat → ScopeState
  | 0 => emptyScope
  | j + 1 => (flushScope cfg (recordCall cfg (cumCycleState cfg k dur tid j) k dur tid)).2

/-- The data points emitted by flush number `j + 1` in the above iteration. -/
def cumCycleEmit (cfg : EngineConfig) (k : String) (dur : Int) (tid : Nat) (j : Nat) :
    List DataPoint :=
  (flushScope cfg (recordCall cfg (cumCycleState cfg k dur tid j) k dur tid)).1

/-- The call-count value of the data point a flush emits for Series Key `k`
(none when the scope does not track `k`). -/
def flushValueOf (cfg : EngineConfig) (σ : ScopeState) (k : String) : Option Nat :=
  (assocFind k σ.tracked).map emitValue

/-! ### Concrete instances used by counterexamples and witnesses -/

/-- A cumulative configuration with no cardinality limit and no exemplars. -/
def exCfgCum : EngineConfig :=
  { temporality := .cumulative, aggregationCardinalityLimit := 0, bounds := [],
    exemplarsEnabled := false, dimensions := [] }

/-- A cumulative configuration with exemplars enabled. -/
def exCfgEx : EngineConfig := { exCfgCum with exemplarsEnabled := true }

/-- A cumulative configuration with per-scope cardinality limit 1. -/
def exCfgLim : EngineConfig := { exCfgCum with aggregationCardinalityLimit := 1 }

/-- Three calls over two distinct Series Keys. -/
def exCalls : List (String × Int × Nat) := [("a", 0, 0), ("b", 0, 0), ("b", 0, 0)]

/-- Resource attributes: service "svc" on host "h1". -/
def exRes1 : List (String × String) := [("service.name", "svc"), ("host", "h1")]

/-- Resource attributes: service "svc" on host "h2" (same service fingerprint). -/
def exRes2 : List (String × String) := [("service.name", "svc"), ("host", "h2")]

/-- Three distinct resource fingerprints. -/
def exFps : List (List (String × String)) :=
  [[("a", "1")], [("b", "2")], [("c", "3")]]

/-- Whether no series of the scope holds a pending exemplar (the state right
after a flush). -/
def allExemplarsEmpty (σ : ScopeState) : Bool :=
  (σ.tracked.all fun p => p.2.exemplars.isEmpty) &&
    (match σ.overflow with
     | some d => d.exemplars.isEmpty
     | none => true)

/-- A timeseries key for a concrete counterexample. -/
def exKey : TimeseriesKey :=
  { name := "calls", attributes := List.replicate 16 0, aggTemporality := .unspecified }

/-- A timeseries map holding one marked (recently accessed) entry. -/
def exTsm : TimeseriesMap := { mark := true, tsiMap := [(exKey, { mark := true })] }

/-- A second timeseries key, distinct from `exKey`. -/
def exKeyB : TimeseriesKey :=
  { name := "duration", attributes := List.replicate 16 1, aggTemporality := .cumulative }

/-- A timeseries map holding one marked and one unmarked entry. -/
def exTsm2 : TimeseriesMap :=
  { mark := true, tsiMap := [(exKey, { mark := true }), (exKeyB, { mark := false })] }

/-- A span named "c" with no attributes and the default kind/status strings. -/
def exSpanC : SpanRec :=
  { name := "c", kind := "SPAN_KIND_UNSPECIFIED", statusCode := "STATUS_CODE_UNSET",
    attributes := [], startTimestamp := 0, endTimestamp := 0, traceId := 0 }

/-- A span whose name contains the null separator byte. -/
def exSpanNul : SpanRec := { exSpanC with name := "b\x00c" }

/-- A span named "bc". -/
def exSpanBC : SpanRec := { exSpanC with name := "bc" }

/-- A span whose end timestamp precedes its start timestamp. -/
def exSpanBad : SpanRec := { exSpanC with startTimestamp := 10, endTimestamp := 5 }

/-- A dimension named "foo" with configured default "bar". -/
def exDim : Dimension := { name := "foo", value := some "bar" }

/-- A dimension with no configured default, matching no attribute below. -/
def exDimNone : Dimension := { name := "missing", value := none }

/-- Resource attributes carrying "foo". -/
def exResAttrs : List (String × String) := [("foo", "resVal")]

/-- A span carrying the "foo" attribute. -/
def exSpanDim : SpanRec := { exSpanC with attributes := [("foo", "spanVal")] }

/-! ## Helper lemmas on association lists -/

section AssocLemmas

variable {κ β : Type} [DecidableEq κ]

theorem assocFind_cons {k : κ} {p : κ × β} {t : List (κ × β)} :
    assocFind k (p :: t) = if p.1 = k then some p.2 else assocFind k t := rfl

theorem mem_keysOf {k : κ} {l : List (κ × β)} :
    k ∈ keysOf l ↔ ∃ b, (k, b) ∈ l := by
  simp only [keysOf, List.mem_map]
  constructor
  · rintro ⟨p, hp, hk⟩
    exact ⟨p.2, by rwa [show (k, p.2) = p from by rw [← hk]]⟩
  · rintro ⟨b, hb⟩
    exact ⟨(k, b), hb, rfl⟩

theorem assocFind_eq_none_iff {k : κ} {l : List (κ × β)} :
    assocFind k l = none ↔ k ∉ keysOf l := by
  induction l with
  | nil => simp [assocFind, keysOf]
  | cons p t ih =>
    rw [assocFind_cons]
    by_cases hp : p.1 = k
    · simp only [if_pos hp, keysOf, List.map_cons, hp, List.mem_cons]
      simp
    · simp only [if_neg hp, keysOf, List.map_cons, List.mem_cons, ih, keysOf]
      constructor
      · intro hn hor
        rcases hor with h1 | h2
        · exact hp h1.symm
        · exact hn h2
      · intro hn h2
        exact hn (Or.inr h2)

theorem assocFind_mem {k : κ} {l : List (κ × β)} {b : β}
    (h : assocFind k l = some b) : (k, b) ∈ l := by
  induction l with
  | nil => simp [assocFind] at h
  | cons p t ih =>
    rw [assocFind_cons] at h
    by_cases hp : p.1 = k
    · rw [if_pos hp, Option.some_inj] at h
      obtain ⟨a, b'⟩ := p
      subst hp
      subst h
      exact List.mem_cons_self _ _
    · rw [if_neg hp] at h
      exact List.mem_cons_of_mem _ (ih h)

theorem mem_keysOf_of_find_some {k : κ} {l : List (κ × β)} {b : β}
    (h : assocFind k l = some b) : k ∈ keysOf l := by
  by_contra hk
  rw [← assocFind_eq_none_iff] at hk
  simp [hk] at h

theorem assocPut_cons {k : κ} {v : β} {p : κ × β} {t : List (κ × β)} :
    assocPut k v (p :: t) = if p.1 = k then (k, v) :: t else p :: assocPut k v t := rfl

theorem assocFind_assocPut_self {k : κ} {v : β} {l : List (κ × β)} :
    assocFind k (assocPut k v l) = some v := by
  induction l with
  | nil => simp [assocFind, assocPut]
  | cons p t ih =>
    rw [assocPut_cons]
    by_cases hp : p.1 = k
    · rw [if_pos hp, assocFind_cons, if_pos rfl]
    · rw [if_neg hp, assocFind_cons, if_neg hp]
      exact ih

theorem assocFind_assocPut_ne {k k' : κ} {v : β} {l : List (κ × β)} (h : k' ≠ k) :
    assocFind k' (assocPut k v l) = assocFind k' l := by
  have hk : ¬ (k = k') := fun hh => h hh.symm
  induction l with
  | nil => simp [assocFind, assocPut, hk]
  | cons p t ih =>
    rw [assocPut_cons]
    by_cases hp : p.1 = k
    · rw [if_pos hp, assocFind_cons, assocFind_cons, if_neg hk, if_neg (hp ▸ hk)]
    · rw [if_neg hp, assocFind_cons, assocFind_cons]
      by_cases hp' : p.1 = k'
      · rw [if_pos hp', if_pos hp']
      · rw [if_neg hp', if_neg hp']
        exact ih

theorem keysOf_cons {p : κ × β} {t : List (κ × β)} :
    keysOf (p :: t) = p.1 :: keysOf t := rfl

theorem keysOf_assocPut_of_mem {k : κ} {v : β} {l : List (κ × β)}
    (h : k ∈ keysOf l) : keysOf (assocPut k v l) = keysOf l := by
  induction l with
  | nil => simp [keysOf] at h
  | cons p t ih =>
    rw [assocPut_cons]
    by_cases hp : p.1 = k
    · rw [if_pos hp, keysOf_cons, keysOf_cons, hp]
    · rw [if_neg hp, keysOf_cons, keysOf_cons]
      rw [keysOf_cons, List.mem_cons] at h
      rcases h with h | h
      · exact absurd h.symm hp
      · rw [ih h]

theorem keysOf_assocPut_of_not_mem {k : κ} {v : β} {l : List (κ × β)}
    (h : k ∉ keysOf l) : keysOf (assocPut k v l) = keysOf l ++ [k] := by
  induction l with
  | nil => simp [assocPut, keysOf]
  | cons p t ih =>
    rw [keysOf_cons, List.mem_cons] at h
    push_neg at h
    rw [assocPut_cons, if_neg (fun hh => h.1 hh.symm), keysOf_cons, keysOf_cons,
      ih h.2, List.cons_append]

theorem length_assocPut_of_mem {k : κ} {v : β} {l : List (κ × β)}
    (h : k ∈ keysOf l) : (assocPut k v l).length = l.length := by
  have h1 : (keysOf (assocPut k v l)).length = (keysOf l).length := by
    rw [keysOf_assocPut_of_mem (v := v) h]
  simpa [keysOf] using h1

theorem mem_assocPut {k : κ} {v : β} {l : List (κ × β)} {p : κ × β}
    (h : p ∈ assocPut k v l) : p = (k, v) ∨ p ∈ l := by
  induction l with
  | nil => simpa [assocPut] using h
  | cons q t ih =>
    rw [assocPut_cons] at h
    by_cases hq : q.1 = k
    · rw [if_pos hq, List.mem_cons] at h
      rcases h with h | h
      · left; exact h
      · right; exact List.mem_cons_of_mem _ h
    · rw [if_neg hq, List.mem_cons] at h
      rcases h with h | h
      · right; rw [h]; exact List.mem_cons_self _ _
      · rcases ih h with h' | h'
        · left; exact h'
        · right; exact List.mem_cons_of_mem _ h'

theorem nodup_keysOf_assocPut {k : κ} {v : β} {l : List (κ × β)}
    (h : (keysOf l).Nodup) : (keysOf (assocPut k v l)).Nodup := by
  by_cases hk : k ∈ keysOf l
  · rwa [keysOf_assocPut_of_mem hk]
  · rw [keysOf_assocPut_of_not_mem hk]
    refine List.Nodup.append h (List.nodup_singleton k) ?_
    intro a ha hb
    rw [List.mem_singleton] at hb
    exact hk (hb ▸ ha)

theorem assocPut_map_sum {M : Type} [AddCommMonoid M] (f : β → M)
    {k : κ} {v d : β} {l : List (κ × β)} (h : assocFind k l = some d) :
    ((assocPut k v l).map fun p => f p.2).sum + f d =
      (l.map fun p => f p.2).sum + f v := by
  induction l with
  | nil => simp [assocFind] at h
  | cons p t ih =>
    rw [assocFind_cons] at h
    rw [assocPut_cons]
    by_cases hp : p.1 = k
    · rw [if_pos hp] at h ⊢
      rw [Option.some_inj] at h
      subst h
      simp only [List.map_cons, List.sum_cons]
      abel
    · rw [if_neg hp] at h ⊢
      have hrec := ih h
      simp only [List.map_cons, List.sum_cons]
      calc f p.2 + ((assocPut k v t).map fun p => f p.2).sum + f d
          = f p.2 + (((assocPut k v t).map fun p => f p.2).sum + f d) := by abel
        _ = f p.2 + ((t.map fun p => f p.2).sum + f v) := by rw [hrec]
        _ = f p.2 + (t.map fun p => f p.2).sum + f v := by abel

theorem assocFind_append {k : κ} {l1 l2 : List (κ × β)} :
    assocFind k (l1 ++ l2) =
      match assocFind k l1 with
      | some b => some b
      | none => assocFind k l2 := by
  induction l1 with
  | nil => simp [assocFind]
  | cons p t ih =>
    rw [List.cons_append, assocFind_cons, assocFind_cons]
    by_cases hp : p.1 = k
    · rw [if_pos hp, if_pos hp]
    · rw [if_neg hp, if_neg hp, ih]

theorem assocFind_map_value {γ : Type} (g : β → γ) {k : κ} {l : List (κ × β)} :
    assocFind k (l.map fun p => (p.1, g p.2)) = (assocFind k l).map g := by
  induction l with
  | nil => simp [assocFind]
  | cons p t ih =>
    rw [List.map_cons, assocFind_cons, assocFind_cons]
    by_cases hp : p.1 = k
    · simp [if_pos hp]
    · rw [if_neg hp, if_neg hp, ih]

theorem assocFind_eraseAll {k : κ} {l : List (κ × β)} :
    assocFind k (assocEraseAll k l) = none := by
  rw [assocFind_eq_none_iff]
  intro h
  rw [mem_keysOf] at h
  rcases h with ⟨b, hb⟩
  rw [assocEraseAll, List.mem_filter] at hb
  simpa using hb.2

theorem assocEraseAll_of_not_mem {k : κ} {l : List (κ × β)} (h : k ∉ keysOf l) :
    assocEraseAll k l = l := by
  apply List.filter_eq_self.mpr
  intro p hp
  simp only [decide_eq_true_eq, ne_eq, decide_not]
  simp only [Bool.not_eq_eq_eq_not, Bool.not_true, decide_eq_false_iff_not]
  intro hk
  apply h
  rw [mem_keysOf]
  exact ⟨p.2, by rwa [← hk, Prod.mk.eta]⟩

theorem keysOf_append {l1 l2 : List (κ × β)} :
    keysOf (l1 ++ l2) = keysOf l1 ++ keysOf l2 := by
  simp [keysOf]

end AssocLemmas

/-! ## Lemmas about the timeseries map (Part A) -/

theorem gcList_find (l : List (TimeseriesKey × TimeseriesInfo))
    (h : (keysOf l).Nodup) (k : TimeseriesKey) :
    assocFind k ((l.filter fun p => p.2.mark).map fun p =>
        (p.1, ({ mark := false } : TimeseriesInfo))) =
      match assocFind k l with
      | some tsi => if tsi.mark then some { mark := false } else none
      | none => none := by
  induction l with
  | nil => simp [assocFind]
  | cons p t ih =>
    rw [keysOf_cons, List.nodup_cons] at h
    have ht := ih h.2
    by_cases hm : p.2.mark
    · rw [List.filter_cons_of_pos (by simpa using hm), List.map_cons, assocFind_cons]
      by_cases hp : p.1 = k
      · simp only [if_pos hp, assocFind_cons, if_pos hp]
        simp [hm]
      · simp only [if_neg hp, assocFind_cons]
        rw [ht]
    · rw [List.filter_cons_of_neg (by simpa using hm)]
      by_cases hp : p.1 = k
      · have hnone : assocFind k ((t.filter fun q => q.2.mark).map fun q =>
            (q.1, ({ mark := false } : TimeseriesInfo))) = none := by
          rw [assocFind_eq_none_iff]
          intro hmem
          rw [mem_keysOf] at hmem
          rcases hmem with ⟨b, hb⟩
          rw [List.mem_map] at hb
          rcases hb with ⟨q, hq, hqe⟩
          have hq1 : q.1 = k := congrArg Prod.fst hqe
          apply h.1
          rw [mem_keysOf]
          refine ⟨q.2, ?_⟩
          have hq2 : q.1 = p.1 := by rw [hq1, hp]
          rw [← hq2, Prod.mk.eta]
          exact List.mem_of_mem_filter hq
        rw [hnone]
        simp only [assocFind_cons, if_pos hp]
        simp [hm]
      · rw [ht]
        simp only [assocFind_cons, if_neg hp]

theorem gc_find (tsm : TimeseriesMap) (h : (keysOf tsm.tsiMap).Nodup) (k : TimeseriesKey) :
    assocFind k (tsm.gc).tsiMap =
      match assocFind k tsm.tsiMap with
      | some tsi => if tsi.mark then some { mark := false } else none
      | none => none :=
  gcList_find tsm.tsiMap h k

theorem gc_mark (tsm : TimeseriesMap) : (tsm.gc).mark = false := rfl

theorem gc_entry_marks (tsm : TimeseriesMap) {p : TimeseriesKey × TimeseriesInfo}
    (h : p ∈ (tsm.gc).tsiMap) : p.2.mark = false := by
  simp only [TimeseriesMap.gc, List.mem_map] at h
  rcases h with ⟨q, _, hq⟩
  rw [← hq]

theorem map_unmarked_filter_nil (l : List (TimeseriesKey × TimeseriesInfo)) :
    ((l.map fun p => (p.1, ({ mark := false } : TimeseriesInfo))).filter
      fun p => p.2.mark) = [] := by
  induction l with
  | nil => rfl
  | cons a t ih => simpa [List.filter_cons] using ih

theorem gc_gc_tsiMap (tsm : TimeseriesMap) : ((tsm.gc).gc).tsiMap = [] := by
  have h := map_unmarked_filter_nil (tsm.tsiMap.filter fun p => p.2.mark)
  simp only [TimeseriesMap.gc]
  rw [h]
  rfl

/-! ## Claim C1 -/

/-- Claim C1 (counterexample): on a map holding one marked entry, the first
sweep retains the entry (clearing its mark), yet the second sweep — with no
intervening access — evicts it: the second sweep does produce a further
eviction beyond the first sweep's, so the TTL sweep is not idempotent. -/
theorem gcIdempotenceCounterexample :
    (exTsm.gc).tsiMap = [(exKey, { mark := false })] ∧ ((exTsm.gc).gc).tsiMap = [] := by
  constructor <;> rfl

/-- Claim C1 (amended): the sweep is not idempotent — invoking it twice in a
row with no intervening span ingestion evicts, in the second sweep, exactly the
entries that survived the first sweep (whose marks the first sweep cleared):
after two consecutive sweeps the map is empty, and only from the second sweep
on do further sweeps produce no evictions. -/
theorem gcSecondSweepEmptiesMap (tsm : TimeseriesMap) :
    ((tsm.gc).gc).tsiMap = [] ∧ ((tsm.gc).gc).gc = (tsm.gc).gc := by
  refine ⟨gc_gc_tsiMap tsm, ?_⟩
  have h1 := gc_gc_tsiMap tsm
  have h2 := gc_mark (tsm.gc)
  rcases hEq : (tsm.gc).gc with ⟨m, l⟩
  rw [hEq] at h1 h2
  change l = [] at h1
  change m = false at h2
  subst h1
  subst h2
  rfl

/-! ## Claim C10 -/

/-- Claim C10: after a sweep returns, exactly those entries whose mark flag was
false at its start have been removed, every surviving entry's mark flag and the
map's own mark flag are false (so an entry can survive the next sweep only if
re-marked by a lookup in between), and a lookup of an absent key inserts a
fresh entry, marks it and the map, and reports that the key did not previously
exist. -/
theorem gcMarkSweepInvariant (tsm : TimeseriesMap)
    (h : (keysOf tsm.tsiMap).Nodup) :
    (∀ k, assocFind k (tsm.gc).tsiMap =
        match assocFind k tsm.tsiMap with
        | some tsi => if tsi.mark then some { mark := false } else none
        | none => none) ∧
    (tsm.gc).mark = false ∧
    (∀ p ∈ (tsm.gc).tsiMap, p.2.mark = false) ∧
    (∀ metric kv, assocFind (buildTsKey metric kv) tsm.tsiMap = none →
      (tsm.get metric kv).1.2 = false ∧
      (tsm.get metric kv).1.1 = { mark := true } ∧
      ((tsm.get metric kv).2).mark = true ∧
      assocFind (buildTsKey metric kv) ((tsm.get metric kv).2).tsiMap =
        some { mark := true }) := by
  refine ⟨gc_find tsm h, gc_mark tsm, fun p hp => gc_entry_marks tsm hp, ?_⟩
  intro metric kv hnone
  simp only [TimeseriesMap.get, hnone]
  exact ⟨True.intro, True.intro, True.intro, assocFind_assocPut_self⟩

/-- Claim C10 (witness): the invariant instantiated on a concrete two-entry
map with one marked and one unmarked entry. -/
theorem gcMarkSweepInvariant_witness :
    (keysOf exTsm2.tsiMap).Nodup ∧
    ((∀ k, assocFind k (exTsm2.gc).tsiMap =
        match assocFind k exTsm2.tsiMap with
        | some tsi => if tsi.mark then some { mark := false } else none
        | none => none) ∧
    (exTsm2.gc).mark = false ∧
    (∀ p ∈ (exTsm2.gc).tsiMap, p.2.mark = false) ∧
    (∀ metric kv, assocFind (buildTsKey metric kv) exTsm2.tsiMap = none →
      (exTsm2.get metric kv).1.2 = false ∧
      (exTsm2.get metric kv).1.1 = { mark := true } ∧
      ((exTsm2.get metric kv).2).mark = true ∧
      assocFind (buildTsKey metric kv) ((exTsm2.get metric kv).2).tsiMap =
        some { mark := true })) :=
  ⟨by decide, gcMarkSweepInvariant exTsm2 (by decide)⟩

/-! ## Lemmas about the Series Key join -/

theorem sep_split : ∀ (x : List Char) {y u v : List Char}, nulChar ∉ x → nulChar ∉ y →
    x ++ nulChar :: u = y ++ nulChar :: v → x = y ∧ u = v := by
  intro x
  induction x with
  | nil =>
    intro y u v _ hy h
    cases y with
    | nil => simpa using h
    | cons b t =>
      rw [List.nil_append, List.cons_append, List.cons_eq_cons] at h
      exact absurd (by rw [h.1]; exact List.mem_cons_self _ _) hy
  | cons a x ih =>
    intro y u v hx hy h
    cases y with
    | nil =>
      rw [List.nil_append, List.cons_append, List.cons_eq_cons] at h
      exact absurd (by rw [h.1]; exact List.mem_cons_self _ _) hx
    | cons b t =>
      rw [List.cons_append, List.cons_append, List.cons_eq_cons] at h
      have hx' : nulChar ∉ x := fun hm => hx (List.mem_cons_of_mem _ hm)
      have hy' : nulChar ∉ t := fun hm => hy (List.mem_cons_of_mem _ hm)
      have hr := ih hx' hy' h.2
      exact ⟨by rw [h.1, hr.1], hr.2⟩

theorem joinChars_inj : ∀ (xs ys : List (List Char)), xs ≠ [] → ys ≠ [] →
    (∀ s ∈ xs, nulChar ∉ s) → (∀ s ∈ ys, nulChar ∉ s) →
    joinChars xs = joinChars ys → xs = ys := by
  intro xs
  induction xs with
  | nil => intro ys h _ _ _ _; exact absurd rfl h
  | cons x xs ih =>
    intro ys _ hys hx hy h
    cases xs with
    | nil =>
      cases ys with
      | nil => exact absurd rfl hys
      | cons y ys' =>
        cases ys' with
        | nil =>
          rw [show joinChars [x] = x from rfl, show joinChars [y] = y from rfl] at h
          rw [h]
        | cons y2 t =>
          rw [show joinChars [x] = x from rfl,
            show joinChars (y :: y2 :: t) = y ++ nulChar :: joinChars (y2 :: t) from rfl] at h
          have hmem : nulChar ∈ x := by
            rw [h]
            exact List.mem_append_right _ (List.mem_cons_self _ _)
          exact absurd hmem (hx x (List.mem_cons_self _ _))
    | cons x2 xt =>
      cases ys with
      | nil => exact absurd rfl hys
      | cons y ys' =>
        cases ys' with
        | nil =>
          rw [show joinChars [y] = y from rfl,
            show joinChars (x :: x2 :: xt) = x ++ nulChar :: joinChars (x2 :: xt) from rfl] at h
          have hmem : nulChar ∈ y := by
            rw [← h]
            exact List.mem_append_right _ (List.mem_cons_self _ _)
          exact absurd hmem (hy y (List.mem_cons_self _ _))
        | cons y2 yt =>
          rw [show joinChars (x :: x2 :: xt) = x ++ nulChar :: joinChars (x2 :: xt) from rfl,
            show joinChars (y :: y2 :: yt) = y ++ nulChar :: joinChars (y2 :: yt) from rfl] at h
          have hsplit := sep_split x (hx x (List.mem_cons_self _ _))
            (hy y (List.mem_cons_self _ _)) h
          have hrec := ih (y2 :: yt) (by simp) (by simp)
            (fun s hs => hx s (List.mem_cons_of_mem _ hs))
            (fun s hs => hy s (List.mem_cons_of_mem _ hs)) hsplit.2
          rw [hsplit.1, hrec]

theorem data_nulSep : nulSep.data = [nulChar] := rfl

theorem joinKey_data : ∀ l : List String, (joinKey l).data = joinChars (l.map String.data)
  | [] => rfl
  | [_] => rfl
  | s :: t :: r => by
    show (s ++ nulSep ++ joinKey (t :: r)).data =
      s.data ++ nulChar :: joinChars ((t :: r).map String.data)
    rw [String.data_append, String.data_append, data_nulSep, joinKey_data (t :: r)]
    simp

theorem string_data_inj : Function.Injective String.data := by
  intro a b h
  exact String.ext h

theorem joinKey_inj {xs ys : List String} (hxs : xs ≠ []) (hys : ys ≠ [])
    (hx : ∀ s ∈ xs, nulFree s) (hy : ∀ s ∈ ys, nulFree s) :
    joinKey xs = joinKey ys ↔ xs = ys := by
  constructor
  · intro h
    have hd : joinChars (xs.map String.data) = joinChars (ys.map String.data) := by
      rw [← joinKey_data, ← joinKey_data, h]
    have hmap := joinChars_inj (xs.map String.data) (ys.map String.data)
      (by simpa using hxs) (by simpa using hys)
      (by intro s hs
          rw [List.mem_map] at hs
          rcases hs with ⟨a, ha, rfl⟩
          exact hx a ha)
      (by intro s hs
          rw [List.mem_map] at hs
          rcases hs with ⟨a, ha, rfl⟩
          exact hy a ha)
      hd
    exact List.map_injective_iff.mpr string_data_inj hmap
  · intro h
    rw [h]

/-! ## Claim C2 -/

/-- Claim C2 (counterexample): two spans with different ordered component
sequences — service "a\x00b" with span name "c" versus service "a" with span
name "b\x00c" — receive the same Series Key, because a component may itself
contain the null separator byte; key equality does not imply component-sequence
equality in general. -/
theorem buildKeyCollisionCounterexample :
    buildKey "a\x00b" exSpanC [] [] = buildKey "a" exSpanNul [] [] ∧
    keyComponents "a\x00b" exSpanC [] [] ≠ keyComponents "a" exSpanNul [] [] := by
  constructor
  · rfl
  · decide

/-- Claim C2 (amended): for spans all of whose ordered key components (service
name, span name, span kind, status code, resolved dimension values) are free of
the null separator byte, the Key Builder yields equal Series Keys iff the
ordered component sequences are equal; in particular components ("ab", "c") and
("a", "bc") yield different keys. -/
theorem buildKeyInjective (svc1 svc2 : String) (sp1 sp2 : SpanRec)
    (dims1 dims2 : List Dimension) (res1 res2 : List (String × String))
    (h1 : ∀ c ∈ keyComponents svc1 sp1 dims1 res1, nulFree c)
    (h2 : ∀ c ∈ keyComponents svc2 sp2 dims2 res2, nulFree c) :
    buildKey svc1 sp1 dims1 res1 = buildKey svc2 sp2 dims2 res2 ↔
      keyComponents svc1 sp1 dims1 res1 = keyComponents svc2 sp2 dims2 res2 := by
  apply joinKey_inj _ _ h1 h2 <;> simp [keyComponents]

/-- Claim C2 (witness): instantiated on the spec's example — service "ab", span
"c" versus service "a", span "bc"; the component sequences differ, so by the
equivalence the keys differ. -/
theorem buildKeyInjective_witness :
    (∀ c ∈ keyComponents "ab" exSpanC [] [], nulFree c) ∧
    (∀ c ∈ keyComponents "a" exSpanBC [] [], nulFree c) ∧
    (buildKey "ab" exSpanC [] [] = buildKey "a" exSpanBC [] [] ↔
      keyComponents "ab" exSpanC [] [] = keyComponents "a" exSpanBC [] []) :=
  ⟨by decide, by decide,
   buildKeyInjective "ab" "a" exSpanC exSpanBC [] [] [] [] (by decide) (by decide)⟩

/-! ## Claim C3 -/

/-- Claim C3: a configured optional dimension resolves by precedence span
attribute, else resource attribute, else configured default; when both carry
the attribute the span value wins, and when nothing resolves, the dimension's
slot and its null-byte separator are omitted from the key entirely. -/
theorem dimensionPrecedence (d : Dimension) (svc : String) (sp : SpanRec)
    (resAttrs : List (String × String)) (dims1 dims2 : List Dimension) :
    (∀ v, assocFind d.name sp.attributes = some v →
      resolveDimension d sp.attributes resAttrs = some v) ∧
    (assocFind d.name sp.attributes = none →
      ∀ v, assocFind d.name resAttrs = some v →
        resolveDimension d sp.attributes resAttrs = some v) ∧
    (assocFind d.name sp.attributes = none → assocFind d.name resAttrs = none →
      resolveDimension d sp.attributes resAttrs = d.value) ∧
    (resolveDimension d sp.attributes resAttrs = none →
      buildKey svc sp (dims1 ++ d :: dims2) resAttrs =
        buildKey svc sp (dims1 ++ dims2) resAttrs) := by
  refine ⟨?_, ?_, ?_, ?_⟩
  · intro v hv
    simp [resolveDimension, hv]
  · intro h0 v hv
    simp [resolveDimension, h0, hv]
  · intro h0 h1
    simp [resolveDimension, h0, h1]
  · intro h0
    simp [buildKey, keyComponents, List.filterMap_append, List.filterMap_cons, h0]

/-- Claim C3 (witness): with span attribute "foo"="spanVal" and resource
attribute "foo"="resVal", resolution yields the span value; a dimension that
resolves nowhere leaves the key without a slot or separator. -/
theorem dimensionPrecedence_witness :
    resolveDimension exDim exSpanDim.attributes exResAttrs = some "spanVal" ∧
    buildKey "svc" exSpanDim ([] ++ exDimNone :: []) exResAttrs =
      buildKey "svc" exSpanDim ([] ++ []) exResAttrs :=
  ⟨(dimensionPrecedence exDim "svc" exSpanDim exResAttrs [] []).1 "spanVal" (by decide),
   (dimensionPrecedence exDimNone "svc" exSpanDim exResAttrs [] []).2.2.2 (by decide)⟩

/-! ## Lemmas about the aggregation scope -/

section ScopeLemmas

variable {cfg : EngineConfig} {σ : ScopeState} {d : SeriesData} {k : String}
variable {dur : Int} {tid : Nat}

@[simp] theorem recordInto_callCount :
    (recordInto cfg d dur tid).callCount = d.callCount + 1 := rfl

@[simp] theorem recordInto_durationSum :
    (recordInto cfg d dur tid).durationSum = d.durationSum + dur := rfl

@[simp] theorem recordInto_initialised :
    (recordInto cfg d dur tid).initialised = d.initialised := rfl

@[simp] theorem recordInto_exemplars :
    (recordInto cfg d dur tid).exemplars =
      if cfg.exemplarsEnabled then d.exemplars ++ [tid] else d.exemplars := rfl

theorem afterFlush_cumulative (h : cfg.temporality = .cumulative) (d : SeriesData) :
    afterFlush cfg d = { d with exemplars := [], initialised := true } := by
  simp [afterFlush, h]

@[simp] theorem afterFlush_initialised :
    (afterFlush cfg d).initialised = true := by
  cases h : cfg.temporality <;> simp [afterFlush, h]

@[simp] theorem afterFlush_exemplars :
    (afterFlush cfg d).exemplars = [] := by
  cases h : cfg.temporality <;> simp [afterFlush, h, newSeries]

theorem recordCall_totalCalls (cfg : EngineConfig) (σ : ScopeState) (k : String)
    (dur : Int) (tid : Nat) :
    totalCalls (recordCall cfg σ k dur tid) = totalCalls σ + 1 := by
  unfold recordCall
  cases hf : assocFind k σ.tracked with
  | some d =>
    have hs := assocPut_map_sum (fun x : SeriesData => x.callCount)
      (v := recordInto cfg d dur tid) hf
    simp only [totalCalls, recordInto_callCount] at hs ⊢
    omega
  | none =>
    by_cases hc : cfg.aggregationCardinalityLimit = 0 ∨
        σ.tracked.length < cfg.aggregationCardinalityLimit
    · simp only [if_pos hc, totalCalls, List.map_append, List.sum_append,
        List.map_cons, List.sum_cons, List.map_nil, List.sum_nil, recordInto_callCount,
        newSeries]
      omega
    · simp only [if_neg hc, totalCalls]
      cases ho : σ.overflow <;> simp [newSeries] <;> omega

theorem recordCall_totalDuration (cfg : EngineConfig) (σ : ScopeState) (k : String)
    (dur : Int) (tid : Nat) :
    totalDuration (recordCall cfg σ k dur tid) = totalDuration σ + dur := by
  unfold recordCall
  cases hf : assocFind k σ.tracked with
  | some d =>
    have hs := assocPut_map_sum (fun x : SeriesData => x.durationSum)
      (v := recordInto cfg d dur tid) hf
    simp only [totalDuration, recordInto_durationSum] at hs ⊢
    omega
  | none =>
    by_cases hc : cfg.aggregationCardinalityLimit = 0 ∨
        σ.tracked.length < cfg.aggregationCardinalityLimit
    · simp only [if_pos hc, totalDuration, List.map_append, List.sum_append,
        List.map_cons, List.sum_cons, List.map_nil, List.sum_nil, recordInto_durationSum,
        newSeries]
      omega
    · simp only [if_neg hc, totalDuration]
      cases ho : σ.overflow <;> simp [newSeries] <;> omega

theorem flush_points_ne_nil (cfg : EngineConfig) {σ : ScopeState}
    (h : totalCalls σ ≠ 0) : (flushScope cfg σ).1 ≠ [] := by
  intro hnil
  simp only [flushScope] at hnil
  rw [List.append_eq_nil] at hnil
  have ht : σ.tracked = [] := List.map_eq_nil_iff.mp hnil.1
  have ho : σ.overflow = none := by
    cases hov : σ.overflow with
    | none => rfl
    | some d =>
      have h2 := hnil.2
      rw [hov] at h2
      simp at h2
  apply h
  simp [totalCalls, ht, ho]

theorem assocFind_flushScope (cfg : EngineConfig) (σ : ScopeState) (k : String) :
    assocFind k ((flushScope cfg σ).2).tracked =
      (assocFind k σ.tracked).map (afterFlush cfg) := by
  simp only [flushScope]
  exact assocFind_map_value (afterFlush cfg)

theorem assocFind_recordCall_self (cfg : EngineConfig) (σ : ScopeState) (k : String)
    (dur : Int) (tid : Nat) :
    assocFind k (recordCall cfg σ k dur tid).tracked =
      match assocFind k σ.tracked with
      | some d => some (recordInto cfg d dur tid)
      | none =>
        if cfg.aggregationCardinalityLimit = 0 ∨
            σ.tracked.length < cfg.aggregationCardinalityLimit then
          some (recordInto cfg (newSeries cfg) dur tid)
        else none := by
  unfold recordCall
  cases hf : assocFind k σ.tracked with
  | some d => simpa using assocFind_assocPut_self
  | none =>
    by_cases hc : cfg.aggregationCardinalityLimit = 0 ∨
        σ.tracked.length < cfg.aggregationCardinalityLimit
    · simp only [if_pos hc]
      rw [assocFind_append, hf]
      simp [assocFind]
    · simp only [if_neg hc]
      exact hf

theorem flush_point_of_find (cfg : EngineConfig) {σ : ScopeState} {k : String}
    {d : SeriesData} (h : assocFind k σ.tracked = some d) :
    ({ attrs := [("series", k)], value := emitValue d,
       exemplar := d.exemplars.head? } : DataPoint) ∈ (flushScope cfg σ).1 := by
  simp only [flushScope]
  apply List.mem_append_left
  rw [List.mem_map]
  exact ⟨(k, d), assocFind_mem h, rfl⟩

theorem ingest_replicate_shift (cfg : EngineConfig) (k : String) (dur : Int) (tid : Nat) :
    ∀ (n : Nat) (σ : ScopeState) (d : SeriesData), assocFind k σ.tracked = some d →
      ∃ d', assocFind k (ingestCalls cfg σ (List.replicate n (k, dur, tid))).tracked =
          some d' ∧ d'.callCount = d.callCount + n ∧ d'.initialised = d.initialised := by
  intro n
  induction n with
  | zero =>
    intro σ d h
    exact ⟨d, h, rfl, rfl⟩
  | succ m ih =>
    intro σ d h
    rw [List.replicate_succ]
    show ∃ d', assocFind k (ingestCalls cfg (recordCall cfg σ k dur tid)
        (List.replicate m (k, dur, tid))).tracked = some d' ∧ _ ∧ _
    have hstep : assocFind k (recordCall cfg σ k dur tid).tracked =
        some (recordInto cfg d dur tid) := by
      rw [assocFind_recordCall_self, h]
    rcases ih (recordCall cfg σ k dur tid) (recordInto cfg d dur tid) hstep with
      ⟨d', hd', hc, hi⟩
    refine ⟨d', hd', ?_, ?_⟩
    · rw [hc, recordInto_callCount]
      omega
    · rw [hi, recordInto_initialised]

theorem ingest_replicate_empty (cfg : EngineConfig) (k : String) (dur : Int) (tid : Nat)
    (n : Nat) (hn : 1 ≤ n) :
    ∃ d, assocFind k (ingestCalls cfg emptyScope
        (List.replicate n (k, dur, tid))).tracked = some d ∧
      d.callCount = n ∧ d.initialised = false := by
  cases n with
  | zero => omega
  | succ m =>
    rw [List.replicate_succ]
    have hcond : cfg.aggregationCardinalityLimit = 0 ∨
        (emptyScope.tracked).length < cfg.aggregationCardinalityLimit := by
      rcases Nat.eq_zero_or_pos cfg.aggregationCardinalityLimit with h | h
      · exact Or.inl h
      · exact Or.inr (by simpa [emptyScope] using h)
    have hstep : assocFind k (recordCall cfg emptyScope k dur tid).tracked =
        some (recordInto cfg (newSeries cfg) dur tid) := by
      rw [assocFind_recordCall_self]
      have hnone : assocFind k emptyScope.tracked = none := rfl
      rw [hnone, if_pos hcond]
    rcases ingest_replicate_shift cfg k dur tid m (recordCall cfg emptyScope k dur tid)
      (recordInto cfg (newSeries cfg) dur tid) hstep with ⟨d, hd, hc, hi⟩
    refine ⟨d, hd, ?_, ?_⟩
    · rw [hc, recordInto_callCount]
      simp [newSeries]
      omega
    · rw [hi, recordInto_initialised]
      rfl

theorem cumCycleState_spec (cfg : EngineConfig) (hcum : cfg.temporality = .cumulative)
    (k : String) (dur : Int) (tid : Nat) :
    ∀ j, 1 ≤ j → ∃ d : SeriesData,
      assocFind k (cumCycleState cfg k dur tid j).tracked = some d ∧
      d.callCount = j ∧ d.initialised = true := by
  intro j
  induction j with
  | zero => omega
  | succ m ih =>
    intro _
    show ∃ d, assocFind k ((flushScope cfg
        (recordCall cfg (cumCycleState cfg k dur tid m) k dur tid)).2).tracked = some d ∧ _ ∧ _
    cases m with
    | zero =>
      have hcond : cfg.aggregationCardinalityLimit = 0 ∨
          (cumCycleState cfg k dur tid 0).tracked.length < cfg.aggregationCardinalityLimit := by
        have h0 : (cumCycleState cfg k dur tid 0).tracked.length = 0 := rfl
        omega
      have hstep : assocFind k (recordCall cfg (cumCycleState cfg k dur tid 0) k dur tid).tracked =
          some (recordInto cfg (newSeries cfg) dur tid) := by
        rw [assocFind_recordCall_self]
        have hnone : assocFind k (cumCycleState cfg k dur tid 0).tracked = none := rfl
        rw [hnone, if_pos hcond]
      refine ⟨afterFlush cfg (recordInto cfg (newSeries cfg) dur tid), ?_, ?_, ?_⟩
      · rw [assocFind_flushScope, hstep, Option.map_some']
      · rw [afterFlush_cumulative hcum]
        simp [newSeries]
      · exact afterFlush_initialised
    | succ m' =>
      rcases ih (by omega) with ⟨d, hfind, hc, hi⟩
      have hstep : assocFind k (recordCall cfg (cumCycleState cfg k dur tid (m' + 1)) k dur tid).tracked =
          some (recordInto cfg d dur tid) := by
        rw [assocFind_recordCall_self, hfind]
      refine ⟨afterFlush cfg (recordInto cfg d dur tid), ?_, ?_, ?_⟩
      · rw [assocFind_flushScope, hstep, Option.map_some']
      · rw [afterFlush_cumulative hcum]
        simp only [recordInto_callCount]
        omega
      · exact afterFlush_initialised

end ScopeLemmas

/-! ## Claim C9 -/

/-- Claim C9: a span whose end timestamp precedes its start timestamp (negative
duration) is recorded anyway — ingestion returns success, the call count grows
by one, the (negative) duration is accumulated into the sums without
special-casing, and the subsequent flush still emits data points. -/
theorem negativeDurationAccepted (cfg : EngineConfig) (σ : ScopeState) (svc : String)
    (resAttrs : List (String × String)) (sp : SpanRec)
    (hneg : sp.endTimestamp < sp.startTimestamp) :
    ∃ σ', consumeSpan cfg σ svc resAttrs sp = Except.ok σ' ∧
      sp.endTimestamp - sp.startTimestamp < 0 ∧
      totalCalls σ' = totalCalls σ + 1 ∧
      totalDuration σ' = totalDuration σ + (sp.endTimestamp - sp.startTimestamp) ∧
      (flushScope cfg σ').1 ≠ [] := by
  refine ⟨_, rfl, by omega, recordCall_totalCalls cfg σ _ _ _,
    recordCall_totalDuration cfg σ _ _ _, ?_⟩
  apply flush_points_ne_nil
  rw [recordCall_totalCalls]
  omega

/-- Claim C9 (witness): a concrete span ending 5 units before it starts is
accepted and recorded. -/
theorem negativeDurationAccepted_witness :
    exSpanBad.endTimestamp < exSpanBad.startTimestamp ∧
    ∃ σ', consumeSpan exCfgCum emptyScope "svc" [] exSpanBad = Except.ok σ' ∧
      exSpanBad.endTimestamp - exSpanBad.startTimestamp < 0 ∧
      totalCalls σ' = totalCalls emptyScope + 1 ∧
      totalDuration σ' = totalDuration emptyScope +
        (exSpanBad.endTimestamp - exSpanBad.startTimestamp) ∧
      (flushScope exCfgCum σ').1 ≠ [] :=
  ⟨by decide,
   negativeDurationAccepted exCfgCum emptyScope "svc" [] exSpanBad (by decide)⟩

/-! ## Claim C4 -/

/-- Claim C4 (counterexample): under cumulative temporality, consuming one span
(the same trace N = 1 times) and then flushing once yields a call-count data
point of 0, not 1 — the claim's "flushed once after all batches yields N"
contradicts the init-to-zero first emission. -/
theorem cumulativeCallCountsCounterexample :
    flushValueOf exCfgCum (recordCall exCfgCum emptyScope "a" 5 1) "a" = some 0 ∧
    flushValueOf exCfgCum (recordCall exCfgCum emptyScope "a" 5 1) "a" ≠ some 1 := by
  constructor
  · rfl
  · decide

/-- Claim C4 (amended): under cumulative temporality the first flush after a
series is created emits 0 and every later flush emits the total number of calls
recorded so far: consuming the same trace N times and then flushing yields 0 on
that first flush and N on the next; when flushed before each new batch, flush
number j + 1 emits 0 for j = 0 and j + 1 for j ≥ 1.  The last conjunct links
the reported value to an emitted data point of the flush. -/
theorem cumulativeCallCounts (cfg : EngineConfig) (hcum : cfg.temporality = .cumulative)
    (k : String) (dur : Int) (tid : Nat) (n : Nat) (hn : 1 ≤ n) :
    flushValueOf cfg (ingestCalls cfg emptyScope (List.replicate n (k, dur, tid))) k =
      some 0 ∧
    flushValueOf cfg
      ((flushScope cfg (ingestCalls cfg emptyScope (List.replicate n (k, dur, tid)))).2) k =
      some n ∧
    (∀ j, flushValueOf cfg (recordCall cfg (cumCycleState cfg k dur tid j) k dur tid) k =
      some (if j = 0 then 0 else j + 1)) ∧
    (∀ σ k' v, flushValueOf cfg σ k' = some v →
      ∃ e, ({ attrs := [("series", k')], value := v, exemplar := e } : DataPoint) ∈
        (flushScope cfg σ).1) := by
  rcases ingest_replicate_empty cfg k dur tid n hn with ⟨d, hd, hc, hi⟩
  refine ⟨?_, ?_, ?_, ?_⟩
  · rw [flushValueOf, hd, Option.map_some']
    simp [emitValue, hi]
  · rw [flushValueOf, assocFind_flushScope, hd, Option.map_some', Option.map_some']
    rw [afterFlush_cumulative hcum]
    simp [emitValue, hc]
  · intro j
    cases j with
    | zero =>
      have hcond : cfg.aggregationCardinalityLimit = 0 ∨
          (cumCycleState cfg k dur tid 0).tracked.length < cfg.aggregationCardinalityLimit := by
        have h0 : (cumCycleState cfg k dur tid 0).tracked.length = 0 := rfl
        omega
      rw [flushValueOf, assocFind_recordCall_self]
      have hnone : assocFind k (cumCycleState cfg k dur tid 0).tracked = none := rfl
      rw [hnone, if_pos hcond, Option.map_some']
      simp [emitValue, newSeries]
    | succ m =>
      rcases cumCycleState_spec cfg hcum k dur tid (m + 1) (by omega) with ⟨d', hd', hc', hi'⟩
      rw [flushValueOf, assocFind_recordCall_self, hd', Option.map_some']
      simp only [emitValue, recordInto_initialised, hi', if_true, recordInto_callCount, hc']
      simp
  · intro σ k' v hv
    rw [flushValueOf] at hv
    cases hfind : assocFind k' σ.tracked with
    | none => rw [hfind] at hv; simp at hv
    | some d' =>
      rw [hfind, Option.map_some', Option.some_inj] at hv
      exact ⟨d'.exemplars.head?, hv ▸ flush_point_of_find cfg hfind⟩

/-- Claim C4 (witness): the amended behaviour at a concrete cumulative
configuration, key "a", and N = 3. -/
theorem cumulativeCallCounts_witness :
    flushValueOf exCfgCum (ingestCalls exCfgCum emptyScope (List.replicate 3 ("a", 5, 1))) "a" =
      some 0 ∧
    flushValueOf exCfgCum
      ((flushScope exCfgCum (ingestCalls exCfgCum emptyScope (List.replicate 3 ("a", 5, 1)))).2) "a" =
      some 3 ∧
    (∀ j, flushValueOf exCfgCum
        (recordCall exCfgCum (cumCycleState exCfgCum "a" 5 1 j) "a" 5 1) "a" =
      some (if j = 0 then 0 else j + 1)) ∧
    (∀ σ k' v, flushValueOf exCfgCum σ k' = some v →
      ∃ e, ({ attrs := [("series", k')], value := v, exemplar := e } : DataPoint) ∈
        (flushScope exCfgCum σ).1) :=
  cumulativeCallCounts exCfgCum rfl "a" 5 1 3 (by decide)

/-! ## Branch equations for recordCall, and exemplar lemmas -/

section ExemplarLemmas

variable {cfg : EngineConfig} {σ : ScopeState} {d : SeriesData} {k : String}
variable {dur : Int} {tid : Nat}

theorem recordCall_found (hf : assocFind k σ.tracked = some d) :
    recordCall cfg σ k dur tid =
      { σ with tracked := assocPut k (recordInto cfg d dur tid) σ.tracked } := by
  unfold recordCall
  rw [hf]

theorem recordCall_create (hf : assocFind k σ.tracked = none)
    (hc : cfg.aggregationCardinalityLimit = 0 ∨
      σ.tracked.length < cfg.aggregationCardinalityLimit) :
    recordCall cfg σ k dur tid =
      { σ with tracked := σ.tracked ++ [(k, recordInto cfg (newSeries cfg) dur tid)] } := by
  unfold recordCall
  rw [hf, if_pos hc]

theorem recordCall_toOverflow (hf : assocFind k σ.tracked = none)
    (hc : ¬ (cfg.aggregationCardinalityLimit = 0 ∨
      σ.tracked.length < cfg.aggregationCardinalityLimit)) :
    recordCall cfg σ k dur tid =
      { σ with
        overflow := some (recordInto cfg (σ.overflow.getD (newSeries cfg)) dur tid) } := by
  unfold recordCall
  rw [hf, if_neg hc]

theorem head?_mem {α : Type} {l : List α} {a : α} (h : l.head? = some a) : a ∈ l := by
  cases l with
  | nil => simp at h
  | cons b t =>
    simp only [List.head?, Option.some_inj] at h
    rw [← h]
    exact List.mem_cons_self _ _

theorem allExemplarsEmpty_spec (h : allExemplarsEmpty σ = true) :
    (∀ p ∈ σ.tracked, p.2.exemplars = []) ∧
      (∀ d, σ.overflow = some d → d.exemplars = []) := by
  rw [allExemplarsEmpty, Bool.and_eq_true] at h
  constructor
  · intro p hp
    have := List.all_eq_true.mp h.1 p hp
    simpa using this
  · intro d hd
    have h2 := h.2
    rw [hd] at h2
    simpa using h2

theorem flush_clears_exemplars (cfg : EngineConfig) (σ : ScopeState) :
    allExemplarsEmpty ((flushScope cfg σ).2) = true := by
  rw [allExemplarsEmpty, Bool.and_eq_true]
  constructor
  · rw [List.all_eq_true]
    intro p hp
    simp only [flushScope] at hp
    rw [List.mem_map] at hp
    rcases hp with ⟨q, _, rfl⟩
    simp
  · simp only [flushScope]
    cases ho : σ.overflow <;> simp

theorem flush_exemplar_source (cfg : EngineConfig) {σ : ScopeState} {dp : DataPoint}
    {t : Nat} (hdp : dp ∈ (flushScope cfg σ).1) (ht : dp.exemplar = some t) :
    (∃ p ∈ σ.tracked, t ∈ p.2.exemplars) ∨
      (∃ d, σ.overflow = some d ∧ t ∈ d.exemplars) := by
  simp only [flushScope] at hdp
  rw [List.mem_append] at hdp
  rcases hdp with hdp | hdp
  · rw [List.mem_map] at hdp
    rcases hdp with ⟨p, hp, rfl⟩
    left
    exact ⟨p, hp, head?_mem (by simpa using ht)⟩
  · right
    cases ho : σ.overflow with
    | none =>
      rw [ho] at hdp
      simp at hdp
    | some d =>
      rw [ho] at hdp
      simp only [List.mem_singleton] at hdp
      refine ⟨d, rfl, head?_mem ?_⟩
      rw [hdp] at ht
      simpa using ht

theorem recordCall_window_exemplars (cfg : EngineConfig)
    (hE : cfg.exemplarsEnabled = true) {σ0 : ScopeState}
    (hclean : allExemplarsEmpty σ0 = true) (k : String) (dur : Int) (tid : Nat) :
    (∀ p ∈ (recordCall cfg σ0 k dur tid).tracked, ∀ t ∈ p.2.exemplars, t = tid) ∧
    (∀ d, (recordCall cfg σ0 k dur tid).overflow = some d →
      ∀ t ∈ d.exemplars, t = tid) := by
  have hcl := allExemplarsEmpty_spec hclean
  cases hf : assocFind k σ0.tracked with
  | some d =>
    rw [recordCall_found hf]
    constructor
    · intro p hp t htmem
      rcases mem_assocPut hp with hpe | hpe
      · rw [hpe] at htmem
        have hde : d.exemplars = [] := hcl.1 (k, d) (assocFind_mem hf)
        simp only [recordInto_exemplars, hE, if_true, hde, List.nil_append,
          List.mem_singleton] at htmem
        exact htmem
      · rw [hcl.1 p hpe] at htmem
        simp at htmem
    · intro d' hd' t htmem
      rw [hcl.2 d' hd'] at htmem
      simp at htmem
  | none =>
    by_cases hc : cfg.aggregationCardinalityLimit = 0 ∨
        σ0.tracked.length < cfg.aggregationCardinalityLimit
    · rw [recordCall_create hf hc]
      constructor
      · intro p hp t htmem
        rw [List.mem_append] at hp
        rcases hp with hp | hp
        · rw [hcl.1 p hp] at htmem
          simp at htmem
        · rw [List.mem_singleton] at hp
          rw [hp] at htmem
          simp only [recordInto_exemplars, hE, if_true, newSeries, List.nil_append,
            List.mem_singleton] at htmem
          exact htmem
      · intro d' hd' t htmem
        rw [hcl.2 d' hd'] at htmem
        simp at htmem
    · rw [recordCall_toOverflow hf hc]
      constructor
      · intro p hp t htmem
        rw [hcl.1 p hp] at htmem
        simp at htmem
      · intro d' hd' t htmem
        simp only [Option.some_inj] at hd'
        rw [← hd'] at htmem
        cases ho : σ0.overflow with
        | none =>
          rw [ho] at htmem
          simp only [recordInto_exemplars, hE, if_true, Option.getD_none, newSeries,
            List.nil_append, List.mem_singleton] at htmem
          exact htmem
        | some od =>
          rw [ho] at htmem
          have hoe : od.exemplars = [] := hcl.2 od ho
          simp only [recordInto_exemplars, hE, if_true, Option.getD_some, hoe,
            List.nil_append, List.mem_singleton] at htmem
          exact htmem

theorem window_exemplars (cfg : EngineConfig) (hE : cfg.exemplarsEnabled = true)
    {σ0 : ScopeState} (hclean : allExemplarsEmpty σ0 = true) (k : String)
    (dur : Int) (tid : Nat) :
    ∀ dp ∈ (flushScope cfg (recordCall cfg σ0 k dur tid)).1,
      ∀ t, dp.exemplar = some t → t = tid := by
  intro dp hdp t ht
  rcases flush_exemplar_source cfg hdp ht with ⟨p, hp, htm⟩ | ⟨d, hd, htm⟩
  · exact (recordCall_window_exemplars cfg hE hclean k dur tid).1 p hp t htm
  · exact (recordCall_window_exemplars cfg hE hclean k dur tid).2 d hd t htm

theorem overflow_point_mem (cfg : EngineConfig) {σ : ScopeState} {d : SeriesData}
    (h : σ.overflow = some d) :
    ({ attrs := [overflowAttr], value := emitValue d,
       exemplar := d.exemplars.head? } : DataPoint) ∈ (flushScope cfg σ).1 := by
  simp only [flushScope]
  apply List.mem_append_right
  rw [h]
  simp

theorem window_exemplar_exists (cfg : EngineConfig) (hE : cfg.exemplarsEnabled = true)
    {σ0 : ScopeState} (hclean : allExemplarsEmpty σ0 = true) (k : String)
    (dur : Int) (tid : Nat) :
    ∃ dp ∈ (flushScope cfg (recordCall cfg σ0 k dur tid)).1,
      dp.exemplar = some tid := by
  have hcl := allExemplarsEmpty_spec hclean
  cases hf : assocFind k σ0.tracked with
  | some d =>
    have hde : d.exemplars = [] := hcl.1 (k, d) (assocFind_mem hf)
    have hfind : assocFind k (recordCall cfg σ0 k dur tid).tracked =
        some (recordInto cfg d dur tid) := by
      rw [assocFind_recordCall_self, hf]
    refine ⟨_, flush_point_of_find cfg hfind, ?_⟩
    simp [hE, hde]
  | none =>
    by_cases hc : cfg.aggregationCardinalityLimit = 0 ∨
        σ0.tracked.length < cfg.aggregationCardinalityLimit
    · have hfind : assocFind k (recordCall cfg σ0 k dur tid).tracked =
          some (recordInto cfg (newSeries cfg) dur tid) := by
        rw [assocFind_recordCall_self, hf, if_pos hc]
      refine ⟨_, flush_point_of_find cfg hfind, ?_⟩
      simp [hE, newSeries]
    · have hov : (recordCall cfg σ0 k dur tid).overflow =
          some (recordInto cfg (σ0.overflow.getD (newSeries cfg)) dur tid) := by
        rw [recordCall_toOverflow hf hc]
      refine ⟨_, overflow_point_mem cfg hov, ?_⟩
      cases ho : σ0.overflow with
      | none => simp [ho, hE, newSeries]
      | some od =>
        have hoe : od.exemplars = [] := hcl.2 od ho
        simp [ho, hE, hoe]

end ExemplarLemmas

/-! ## Claim C7 -/

/-- Claim C7 (counterexample): under cumulative temporality with exemplars
enabled, ingest one span, flush, and flush again with no further ingestion —
the second flush still emits the series' data point (cumulative state
persists), but the exemplar store was cleared by the first flush, so that data
point carries no exemplar: not every emitted data point carries exactly one
exemplar. -/
theorem exemplarsEveryPointCounterexample :
    ((flushScope exCfgEx
        ((flushScope exCfgEx (recordCall exCfgEx emptyScope "a" 1 7)).2)).1).map
      DataPoint.exemplar = [none] := by
  rfl

/-- Claim C7 (amended): when exemplars are enabled, starting from any scope with
no pending exemplars, every data point emitted by the flush that follows
ingesting a span with trace id T carries only exemplars referencing T, at least
one data point does carry the exemplar T, the flush clears all exemplar stores
(exemplars never survive the flush that emitted them), and after ingesting a
span with a new trace id T2 the next flush's data points reference T2 only —
no carry-over. -/
theorem exemplarsScenario (cfg : EngineConfig) (hE : cfg.exemplarsEnabled = true)
    (σ0 : ScopeState) (hclean : allExemplarsEmpty σ0 = true)
    (k k2 : String) (dur dur2 : Int) (tid tid2 : Nat) :
    (∀ dp ∈ (flushScope cfg (recordCall cfg σ0 k dur tid)).1,
      ∀ t, dp.exemplar = some t → t = tid) ∧
    (∃ dp ∈ (flushScope cfg (recordCall cfg σ0 k dur tid)).1,
      dp.exemplar = some tid) ∧
    allExemplarsEmpty ((flushScope cfg (recordCall cfg σ0 k dur tid)).2) = true ∧
    (∀ dp ∈ (flushScope cfg (recordCall cfg
        ((flushScope cfg (recordCall cfg σ0 k dur tid)).2) k2 dur2 tid2)).1,
      ∀ t, dp.exemplar = some t → t = tid2) := by
  refine ⟨window_exemplars cfg hE hclean k dur tid,
    window_exemplar_exists cfg hE hclean k dur tid,
    flush_clears_exemplars cfg _, ?_⟩
  exact window_exemplars cfg hE (flush_clears_exemplars cfg _) k2 dur2 tid2

/-- Claim C7 (witness): the scenario at a concrete configuration — ingest trace
7 under key "a", flush, ingest trace 9 under key "a", flush. -/
theorem exemplarsScenario_witness :
    (∀ dp ∈ (flushScope exCfgEx (recordCall exCfgEx emptyScope "a" 1 7)).1,
      ∀ t, dp.exemplar = some t → t = 7) ∧
    (∃ dp ∈ (flushScope exCfgEx (recordCall exCfgEx emptyScope "a" 1 7)).1,
      dp.exemplar = some 7) ∧
    allExemplarsEmpty ((flushScope exCfgEx (recordCall exCfgEx emptyScope "a" 1 7)).2) =
      true ∧
    (∀ dp ∈ (flushScope exCfgEx (recordCall exCfgEx
        ((flushScope exCfgEx (recordCall exCfgEx emptyScope "a" 1 7)).2) "a" 1 9)).1,
      ∀ t, dp.exemplar = some t → t = 9) :=
  exemplarsScenario exCfgEx rfl emptyScope rfl "a" "a" 1 1 7 9

/-! ## Cardinality-limiter lemmas -/

section CardinalityLemmas

variable {cfg : EngineConfig} {σ : ScopeState} {d : SeriesData} {k k' : String}
variable {dur : Int} {tid : Nat}

theorem recordCall_keys_mono (cfg : EngineConfig) (σ : ScopeState) (k : String)
    (dur : Int) (tid : Nat) {k' : String} (h : k' ∈ keysOf σ.tracked) :
    k' ∈ keysOf (recordCall cfg σ k dur tid).tracked := by
  cases hf : assocFind k σ.tracked with
  | some d =>
    rw [recordCall_found hf]
    show k' ∈ keysOf (assocPut k (recordInto cfg d dur tid) σ.tracked)
    rw [keysOf_assocPut_of_mem (mem_keysOf_of_find_some hf)]
    exact h
  | none =>
    by_cases hc : cfg.aggregationCardinalityLimit = 0 ∨
        σ.tracked.length < cfg.aggregationCardinalityLimit
    · rw [recordCall_create hf hc]
      show k' ∈ keysOf (σ.tracked ++ [(k, recordInto cfg (newSeries cfg) dur tid)])
      rw [keysOf_append]
      exact List.mem_append_left _ h
    · rw [recordCall_toOverflow hf hc]
      exact h

theorem recordCall_nodup (cfg : EngineConfig) (σ : ScopeState) (k : String)
    (dur : Int) (tid : Nat) (h : (keysOf σ.tracked).Nodup) :
    (keysOf (recordCall cfg σ k dur tid).tracked).Nodup := by
  cases hf : assocFind k σ.tracked with
  | some d =>
    rw [recordCall_found hf]
    exact nodup_keysOf_assocPut h
  | none =>
    by_cases hc : cfg.aggregationCardinalityLimit = 0 ∨
        σ.tracked.length < cfg.aggregationCardinalityLimit
    · rw [recordCall_create hf hc]
      show (keysOf (σ.tracked ++ [(k, recordInto cfg (newSeries cfg) dur tid)])).Nodup
      rw [keysOf_append]
      refine List.Nodup.append h (List.nodup_singleton k) ?_
      intro a ha hb
      simp only [keysOf, List.map_cons, List.map_nil, List.mem_singleton] at hb
      subst hb
      exact (assocFind_eq_none_iff.mp hf) ha
    · rw [recordCall_toOverflow hf hc]
      exact h

theorem recordCall_len_le (cfg : EngineConfig) (σ : ScopeState) (k : String)
    (dur : Int) (tid : Nat) (hL : cfg.aggregationCardinalityLimit ≠ 0)
    (h : σ.tracked.length ≤ cfg.aggregationCardinalityLimit) :
    (recordCall cfg σ k dur tid).tracked.length ≤ cfg.aggregationCardinalityLimit := by
  cases hf : assocFind k σ.tracked with
  | some d =>
    rw [recordCall_found hf]
    show (assocPut k (recordInto cfg d dur tid) σ.tracked).length ≤ _
    rw [length_assocPut_of_mem (mem_keysOf_of_find_some hf)]
    exact h
  | none =>
    by_cases hc : cfg.aggregationCardinalityLimit = 0 ∨
        σ.tracked.length < cfg.aggregationCardinalityLimit
    · rw [recordCall_create hf hc]
      show (σ.tracked ++ [(k, recordInto cfg (newSeries cfg) dur tid)]).length ≤ _
      rw [List.length_append]
      rcases hc with hc | hc
      · exact absurd hc hL
      · simpa using hc
    · rw [recordCall_toOverflow hf hc]
      exact h

theorem recordCall_len_mono (cfg : EngineConfig) (σ : ScopeState) (k : String)
    (dur : Int) (tid : Nat) :
    σ.tracked.length ≤ (recordCall cfg σ k dur tid).tracked.length := by
  cases hf : assocFind k σ.tracked with
  | some d =>
    rw [recordCall_found hf]
    show _ ≤ (assocPut k (recordInto cfg d dur tid) σ.tracked).length
    rw [length_assocPut_of_mem (mem_keysOf_of_find_some hf)]
  | none =>
    by_cases hc : cfg.aggregationCardinalityLimit = 0 ∨
        σ.tracked.length < cfg.aggregationCardinalityLimit
    · rw [recordCall_create hf hc]
      show _ ≤ (σ.tracked ++ [(k, recordInto cfg (newSeries cfg) dur tid)]).length
      rw [List.length_append]
      omega
    · rw [recordCall_toOverflow hf hc]

theorem recordCall_mem_of_lt (cfg : EngineConfig) (σ : ScopeState) (k : String)
    (dur : Int) (tid : Nat)
    (h : cfg.aggregationCardinalityLimit = 0 ∨
      (recordCall cfg σ k dur tid).tracked.length < cfg.aggregationCardinalityLimit) :
    k ∈ keysOf (recordCall cfg σ k dur tid).tracked := by
  cases hf : assocFind k σ.tracked with
  | some d =>
    exact recordCall_keys_mono cfg σ k dur tid (mem_keysOf_of_find_some hf)
  | none =>
    by_cases hc : cfg.aggregationCardinalityLimit = 0 ∨
        σ.tracked.length < cfg.aggregationCardinalityLimit
    · rw [recordCall_create hf hc]
      show k ∈ keysOf (σ.tracked ++ [(k, recordInto cfg (newSeries cfg) dur tid)])
      rw [keysOf_append]
      apply List.mem_append_right
      exact List.mem_cons_self _ _
    · exfalso
      rw [recordCall_toOverflow hf hc] at h
      exact hc h

theorem recordCall_keys_full_stable (cfg : EngineConfig) (σ : ScopeState) (k : String)
    (dur : Int) (tid : Nat) (hL : cfg.aggregationCardinalityLimit ≠ 0)
    (hfull : cfg.aggregationCardinalityLimit ≤ σ.tracked.length) :
    keysOf (recordCall cfg σ k dur tid).tracked = keysOf σ.tracked := by
  cases hf : assocFind k σ.tracked with
  | some d =>
    rw [recordCall_found hf]
    exact keysOf_assocPut_of_mem (mem_keysOf_of_find_some hf)
  | none =>
    by_cases hc : cfg.aggregationCardinalityLimit = 0 ∨
        σ.tracked.length < cfg.aggregationCardinalityLimit
    · rcases hc with hc | hc
      · exact absurd hc hL
      · omega
    · rw [recordCall_toOverflow hf hc]

theorem recordCall_overflow_unlimited (cfg : EngineConfig) (σ : ScopeState) (k : String)
    (dur : Int) (tid : Nat) (hL : cfg.aggregationCardinalityLimit = 0) :
    (recordCall cfg σ k dur tid).overflow = σ.overflow := by
  cases hf : assocFind k σ.tracked with
  | some d => rw [recordCall_found hf]
  | none => rw [recordCall_create hf (Or.inl hL)]

theorem ingest_keys_mono (cfg : EngineConfig) :
    ∀ (s : List (String × Int × Nat)) (σ : ScopeState) {k' : String},
      k' ∈ keysOf σ.tracked → k' ∈ keysOf (ingestCalls cfg σ s).tracked := by
  intro s
  induction s with
  | nil => intro σ k' h; exact h
  | cons c t ih =>
    intro σ k' h
    exact ih _ (recordCall_keys_mono cfg σ c.1 c.2.1 c.2.2 h)

theorem ingest_nodup (cfg : EngineConfig) :
    ∀ (s : List (String × Int × Nat)) (σ : ScopeState),
      (keysOf σ.tracked).Nodup → (keysOf (ingestCalls cfg σ s).tracked).Nodup := by
  intro s
  induction s with
  | nil => intro σ h; exact h
  | cons c t ih =>
    intro σ h
    exact ih _ (recordCall_nodup cfg σ c.1 c.2.1 c.2.2 h)

theorem ingest_len_le (cfg : EngineConfig) (hL : cfg.aggregationCardinalityLimit ≠ 0) :
    ∀ (s : List (String × Int × Nat)) (σ : ScopeState),
      σ.tracked.length ≤ cfg.aggregationCardinalityLimit →
      (ingestCalls cfg σ s).tracked.length ≤ cfg.aggregationCardinalityLimit := by
  intro s
  induction s with
  | nil => intro σ h; exact h
  | cons c t ih =>
    intro σ h
    exact ih _ (recordCall_len_le cfg σ c.1 c.2.1 c.2.2 hL h)

theorem ingest_len_mono (cfg : EngineConfig) :
    ∀ (s : List (String × Int × Nat)) (σ : ScopeState),
      σ.tracked.length ≤ (ingestCalls cfg σ s).tracked.length := by
  intro s
  induction s with
  | nil => intro σ; exact Nat.le_refl _
  | cons c t ih =>
    intro σ
    exact Nat.le_trans (recordCall_len_mono cfg σ c.1 c.2.1 c.2.2) (ih _)

theorem ingest_coverage (cfg : EngineConfig) :
    ∀ (s : List (String × Int × Nat)) (σ : ScopeState),
      (cfg.aggregationCardinalityLimit = 0 ∨
        (ingestCalls cfg σ s).tracked.length < cfg.aggregationCardinalityLimit) →
      ∀ c ∈ s, c.1 ∈ keysOf (ingestCalls cfg σ s).tracked := by
  intro s
  induction s with
  | nil => intro σ _ c hc; simp at hc
  | cons c0 t ih =>
    intro σ hlt c hc
    have hstep : cfg.aggregationCardinalityLimit = 0 ∨
        (recordCall cfg σ c0.1 c0.2.1 c0.2.2).tracked.length <
          cfg.aggregationCardinalityLimit := by
      rcases hlt with h | h
      · exact Or.inl h
      · exact Or.inr (Nat.lt_of_le_of_lt (ingest_len_mono cfg t _) h)
    rw [List.mem_cons] at hc
    rcases hc with hc | hc
    · subst hc
      exact ingest_keys_mono cfg t _ (recordCall_mem_of_lt cfg σ c.1 c.2.1 c.2.2 hstep)
    · exact ih _ hlt c hc

theorem ingest_keys_full_stable (cfg : EngineConfig)
    (hL : cfg.aggregationCardinalityLimit ≠ 0) :
    ∀ (s : List (String × Int × Nat)) (σ : ScopeState),
      cfg.aggregationCardinalityLimit ≤ σ.tracked.length →
      keysOf (ingestCalls cfg σ s).tracked = keysOf σ.tracked := by
  intro s
  induction s with
  | nil => intro σ _; rfl
  | cons c t ih =>
    intro σ hfull
    have hstep := recordCall_keys_full_stable cfg σ c.1 c.2.1 c.2.2 hL hfull
    have hlen : (recordCall cfg σ c.1 c.2.1 c.2.2).tracked.length = σ.tracked.length := by
      have h1 : (keysOf (recordCall cfg σ c.1 c.2.1 c.2.2).tracked).length =
          (keysOf σ.tracked).length := by rw [hstep]
      simpa [keysOf] using h1
    rw [show ingestCalls cfg σ (c :: t) =
      ingestCalls cfg (recordCall cfg σ c.1 c.2.1 c.2.2) t from rfl]
    rw [ih _ (by omega), hstep]

theorem ingest_totalCalls (cfg : EngineConfig) :
    ∀ (s : List (String × Int × Nat)) (σ : ScopeState),
      totalCalls (ingestCalls cfg σ s) = totalCalls σ + s.length := by
  intro s
  induction s with
  | nil => intro σ; rfl
  | cons c t ih =>
    intro σ
    rw [show ingestCalls cfg σ (c :: t) =
      ingestCalls cfg (recordCall cfg σ c.1 c.2.1 c.2.2) t from rfl]
    rw [ih, recordCall_totalCalls]
    simp only [List.length_cons]
    omega

theorem recordCall_overflowCount_found (hf : assocFind k σ.tracked = some d) :
    overflowCount (recordCall cfg σ k dur tid) = overflowCount σ := by
  rw [recordCall_found hf]
  rfl

theorem recordCall_overflowCount_create (hf : assocFind k σ.tracked = none)
    (hc : cfg.aggregationCardinalityLimit = 0 ∨
      σ.tracked.length < cfg.aggregationCardinalityLimit) :
    overflowCount (recordCall cfg σ k dur tid) = overflowCount σ := by
  rw [recordCall_create hf hc]
  rfl

theorem recordCall_overflowCount_overflow (hf : assocFind k σ.tracked = none)
    (hc : ¬ (cfg.aggregationCardinalityLimit = 0 ∨
      σ.tracked.length < cfg.aggregationCardinalityLimit)) :
    overflowCount (recordCall cfg σ k dur tid) = overflowCount σ + 1 := by
  rw [recordCall_toOverflow hf hc]
  show ((some (recordInto cfg (σ.overflow.getD (newSeries cfg)) dur tid)).map
    (fun d => d.callCount)).getD 0 = overflowCount σ + 1
  cases ho : σ.overflow <;> simp [ho, overflowCount, newSeries]

theorem ingest_overflow_countP (cfg : EngineConfig) :
    ∀ (s : List (String × Int × Nat)) (σ : ScopeState),
      overflowCount (ingestCalls cfg σ s) =
        overflowCount σ +
          s.countP (fun c => decide (c.1 ∉ keysOf (ingestCalls cfg σ s).tracked)) := by
  intro s
  induction s with
  | nil => intro σ; simp [ingestCalls]
  | cons c t ih =>
    intro σ
    rw [show ingestCalls cfg σ (c :: t) =
      ingestCalls cfg (recordCall cfg σ c.1 c.2.1 c.2.2) t from rfl]
    rw [List.countP_cons, ih (recordCall cfg σ c.1 c.2.1 c.2.2)]
    cases hf : assocFind c.1 σ.tracked with
    | some d =>
      have hmem : c.1 ∈ keysOf (ingestCalls cfg (recordCall cfg σ c.1 c.2.1 c.2.2) t).tracked :=
        ingest_keys_mono cfg t _
          (recordCall_keys_mono cfg σ c.1 c.2.1 c.2.2 (mem_keysOf_of_find_some hf))
      rw [recordCall_overflowCount_found hf]
      simp [hmem]
    | none =>
      by_cases hc : cfg.aggregationCardinalityLimit = 0 ∨
          σ.tracked.length < cfg.aggregationCardinalityLimit
      · have hmem : c.1 ∈ keysOf (ingestCalls cfg (recordCall cfg σ c.1 c.2.1 c.2.2) t).tracked := by
          apply ingest_keys_mono cfg t _
          rw [recordCall_create hf hc]
          show c.1 ∈ keysOf (σ.tracked ++ [(c.1, recordInto cfg (newSeries cfg) c.2.1 c.2.2)])
          rw [keysOf_append]
          exact List.mem_append_right _ (List.mem_cons_self _ _)
        rw [recordCall_overflowCount_create hf hc]
        simp [hmem]
      · have hL : cfg.aggregationCardinalityLimit ≠ 0 := by
          intro h0
          exact hc (Or.inl h0)
        have hfull : cfg.aggregationCardinalityLimit ≤ σ.tracked.length := by omega
        have hkeys : keysOf (ingestCalls cfg (recordCall cfg σ c.1 c.2.1 c.2.2) t).tracked =
            keysOf σ.tracked := by
          rw [ingest_keys_full_stable cfg hL t _ ?_, recordCall_keys_full_stable cfg σ
            c.1 c.2.1 c.2.2 hL hfull]
          calc cfg.aggregationCardinalityLimit ≤ σ.tracked.length := hfull
            _ ≤ (recordCall cfg σ c.1 c.2.1 c.2.2).tracked.length :=
              recordCall_len_mono cfg σ c.1 c.2.1 c.2.2
        have hnmem : c.1 ∉ keysOf (ingestCalls cfg (recordCall cfg σ c.1 c.2.1 c.2.2) t).tracked := by
          rw [hkeys]
          exact assocFind_eq_none_iff.mp hf
        rw [recordCall_overflowCount_overflow hf hc]
        simp [hnmem]
        omega

end CardinalityLemmas

/-! ## Claim C5 -/

/-- Claim C5: with cardinality limit L > 0, ingesting calls over more than L
distinct Series Keys into one scope leaves exactly L individually tracked keys;
the overflow series absorbs exactly the calls whose keys are not tracked (total
calls are conserved), it is emitted with the overflow=true attribute, tracked
keys are never evicted to make room, and limit 0 means unlimited (no overflow,
every key tracked). -/
theorem cardinalityLimit (cfg : EngineConfig)
    (hL : cfg.aggregationCardinalityLimit ≠ 0) (s : List (String × Int × Nat))
    (hcard : cfg.aggregationCardinalityLimit < ((s.map fun c => c.1).toFinset).card) :
    (ingestCalls cfg emptyScope s).tracked.length = cfg.aggregationCardinalityLimit ∧
    overflowCount (ingestCalls cfg emptyScope s) =
      s.countP (fun c => decide (c.1 ∉ keysOf (ingestCalls cfg emptyScope s).tracked)) ∧
    totalCalls (ingestCalls cfg emptyScope s) = s.length ∧
    (∃ d, (ingestCalls cfg emptyScope s).overflow = some d ∧
      ({ attrs := [overflowAttr], value := emitValue d,
         exemplar := d.exemplars.head? } : DataPoint) ∈
        (flushScope cfg (ingestCalls cfg emptyScope s)).1) ∧
    (∀ (σ : ScopeState) (k : String) (dur : Int) (tid : Nat) (k' : String),
      k' ∈ keysOf σ.tracked → k' ∈ keysOf (recordCall cfg σ k dur tid).tracked) ∧
    (∀ cfg' : EngineConfig, cfg'.aggregationCardinalityLimit = 0 →
      ∀ s' : List (String × Int × Nat),
        (ingestCalls cfg' emptyScope s').overflow = none ∧
        ∀ c ∈ s', c.1 ∈ keysOf (ingestCalls cfg' emptyScope s').tracked) := by
  have hnodup : (keysOf (ingestCalls cfg emptyScope s).tracked).Nodup :=
    ingest_nodup cfg s emptyScope (by simp [emptyScope, keysOf])
  have hle : (ingestCalls cfg emptyScope s).tracked.length ≤
      cfg.aggregationCardinalityLimit :=
    ingest_len_le cfg hL s emptyScope (by simp [emptyScope])
  have hlen : (ingestCalls cfg emptyScope s).tracked.length =
      cfg.aggregationCardinalityLimit := by
    by_contra hne
    have hlt : cfg.aggregationCardinalityLimit = 0 ∨
        (ingestCalls cfg emptyScope s).tracked.length < cfg.aggregationCardinalityLimit := by
      omega
    have hcov := ingest_coverage cfg s emptyScope hlt
    have hsub : (s.map fun c => c.1).toFinset ⊆
        (keysOf (ingestCalls cfg emptyScope s).tracked).toFinset := by
      intro a ha
      rw [List.mem_toFinset] at ha ⊢
      rw [List.mem_map] at ha
      rcases ha with ⟨c, hc, rfl⟩
      exact hcov c hc
    have hcard2 : ((s.map fun c => c.1).toFinset).card ≤
        (ingestCalls cfg emptyScope s).tracked.length := by
      calc ((s.map fun c => c.1).toFinset).card
          ≤ ((keysOf (ingestCalls cfg emptyScope s).tracked).toFinset).card :=
            Finset.card_le_card hsub
        _ ≤ (keysOf (ingestCalls cfg emptyScope s).tracked).length :=
            List.toFinset_card_le _
        _ = (ingestCalls cfg emptyScope s).tracked.length := by simp [keysOf]
    omega
  refine ⟨hlen, ?_, ?_, ?_, ?_, ?_⟩
  · have h := ingest_overflow_countP cfg s emptyScope
    simpa [overflowCount, emptyScope] using h
  · rw [ingest_totalCalls cfg s emptyScope]
    simp [totalCalls, emptyScope]
  · have hex : ∃ c ∈ s, c.1 ∉ keysOf (ingestCalls cfg emptyScope s).tracked := by
      by_contra hall
      push_neg at hall
      have hsub : (s.map fun c => c.1).toFinset ⊆
          (keysOf (ingestCalls cfg emptyScope s).tracked).toFinset := by
        intro a ha
        rw [List.mem_toFinset] at ha ⊢
        rw [List.mem_map] at ha
        rcases ha with ⟨c, hc, rfl⟩
        exact hall c hc
      have hcard2 : ((s.map fun c => c.1).toFinset).card ≤
          (ingestCalls cfg emptyScope s).tracked.length := by
        calc ((s.map fun c => c.1).toFinset).card
            ≤ ((keysOf (ingestCalls cfg emptyScope s).tracked).toFinset).card :=
              Finset.card_le_card hsub
          _ ≤ (keysOf (ingestCalls cfg emptyScope s).tracked).length :=
              List.toFinset_card_le _
          _ = (ingestCalls cfg emptyScope s).tracked.length := by simp [keysOf]
      omega
    have hpos : 0 < overflowCount (ingestCalls cfg emptyScope s) := by
      rw [ingest_overflow_countP cfg s emptyScope]
      have : 0 < s.countP
          (fun c => decide (c.1 ∉ keysOf (ingestCalls cfg emptyScope s).tracked)) := by
        rw [List.countP_pos]
        rcases hex with ⟨c, hc, hnm⟩
        exact ⟨c, hc, by simpa using hnm⟩
      omega
    cases ho : (ingestCalls cfg emptyScope s).overflow with
    | none =>
      rw [overflowCount, ho] at hpos
      simp at hpos
    | some d => exact ⟨d, rfl, overflow_point_mem cfg ho⟩
  · intro σ k dur tid k' h
    exact recordCall_keys_mono cfg σ k dur tid h
  · intro cfg' hL0 s'
    constructor
    · have : ∀ (s'' : List (String × Int × Nat)) (σ : ScopeState),
          (ingestCalls cfg' σ s'').overflow = σ.overflow := by
        intro s''
        induction s'' with
        | nil => intro σ; rfl
        | cons c t ih =>
          intro σ
          rw [show ingestCalls cfg' σ (c :: t) =
            ingestCalls cfg' (recordCall cfg' σ c.1 c.2.1 c.2.2) t from rfl]
          rw [ih, recordCall_overflow_unlimited cfg' σ c.1 c.2.1 c.2.2 hL0]
      rw [this s' emptyScope]
      rfl
    · exact ingest_coverage cfg' s' emptyScope (Or.inl hL0)

/-- Claim C5 (witness): limit 1, calls over keys "a","b","b" — one tracked key,
both "b" calls overflowed, totals conserved, overflow point marked. -/
theorem cardinalityLimit_witness :
    exCfgLim.aggregationCardinalityLimit ≠ 0 ∧
    exCfgLim.aggregationCardinalityLimit < ((exCalls.map fun c => c.1).toFinset).card ∧
    ((ingestCalls exCfgLim emptyScope exCalls).tracked.length =
      exCfgLim.aggregationCardinalityLimit ∧
    overflowCount (ingestCalls exCfgLim emptyScope exCalls) =
      exCalls.countP
        (fun c => decide (c.1 ∉ keysOf (ingestCalls exCfgLim emptyScope exCalls).tracked)) ∧
    totalCalls (ingestCalls exCfgLim emptyScope exCalls) = exCalls.length ∧
    (∃ d, (ingestCalls exCfgLim emptyScope exCalls).overflow = some d ∧
      ({ attrs := [overflowAttr], value := emitValue d,
         exemplar := d.exemplars.head? } : DataPoint) ∈
        (flushScope exCfgLim (ingestCalls exCfgLim emptyScope exCalls)).1) ∧
    (∀ (σ : ScopeState) (k : String) (dur : Int) (tid : Nat) (k' : String),
      k' ∈ keysOf σ.tracked → k' ∈ keysOf (recordCall exCfgLim σ k dur tid).tracked) ∧
    (∀ cfg' : EngineConfig, cfg'.aggregationCardinalityLimit = 0 →
      ∀ s' : List (String × Int × Nat),
        (ingestCalls cfg' emptyScope s').overflow = none ∧
        ∀ c ∈ s', c.1 ∈ keysOf (ingestCalls cfg' emptyScope s').tracked)) :=
  ⟨by decide, by decide, cardinalityLimit exCfgLim (by decide) exCalls (by decide)⟩

/-! ## LRU cache lemmas -/

section LRULemmas

variable {κ β : Type} [DecidableEq κ] {c : LRU κ β} {k : κ} {v fresh b : β}

theorem put_cap (c : LRU κ β) (k : κ) (v : β) : (c.put k v).cap = c.cap := rfl

theorem put_sublist (c : LRU κ β) (k : κ) (v : β) :
    ((c.put k v).entries).Sublist (assocEraseAll k c.entries ++ [(k, v)]) := by
  simp only [LRU.put]
  by_cases hev : 0 < c.cap ∧ c.cap < (assocEraseAll k c.entries ++ [(k, v)]).length
  · rw [if_pos hev]
    exact List.tail_sublist _
  · rw [if_neg hev]

theorem length_eraseAll_le (k : κ) (l : List (κ × β)) :
    (assocEraseAll k l).length ≤ l.length :=
  List.length_filter_le _ _

theorem length_eraseAll_of_mem {l : List (κ × β)}
    (hnodup : (keysOf l).Nodup) (hmem : k ∈ keysOf l) :
    (assocEraseAll k l).length + 1 = l.length := by
  induction l with
  | nil => simp [keysOf] at hmem
  | cons p t ih =>
    rw [keysOf_cons, List.nodup_cons] at hnodup
    rw [keysOf_cons, List.mem_cons] at hmem
    by_cases hp : p.1 = k
    · have hkt : k ∉ keysOf t := hp ▸ hnodup.1
      rw [assocEraseAll, List.filter_cons_of_neg (by simp [hp])]
      rw [show List.filter (fun p => decide (p.1 ≠ k)) t = assocEraseAll k t from rfl,
        assocEraseAll_of_not_mem hkt]
      simp
    · rcases hmem with hmem | hmem
      · exact absurd hmem.symm hp
      · rw [assocEraseAll, List.filter_cons_of_pos (by simp [hp])]
        simp only [List.length_cons]
        rw [show List.filter (fun p => decide (p.1 ≠ k)) t = assocEraseAll k t from rfl]
        have := ih hnodup.2 hmem
        omega

theorem put_lookup_self (c : LRU κ β) (k : κ) (v : β) (hcap : 0 < c.cap) :
    (c.put k v).lookup k = some v := by
  simp only [LRU.lookup, LRU.put]
  by_cases hev : 0 < c.cap ∧ c.cap < (assocEraseAll k c.entries ++ [(k, v)]).length
  · rw [if_pos hev]
    cases hE : assocEraseAll k c.entries with
    | nil =>
      exfalso
      rw [hE] at hev
      simp at hev
      omega
    | cons p rest =>
      show assocFind k ((p :: rest ++ [(k, v)]).tail) = some v
      simp only [List.cons_append, List.tail_cons]
      have hnone : assocFind k (p :: rest) = none := by
        rw [← hE]
        exact assocFind_eraseAll
      rw [assocFind_cons] at hnone
      by_cases hp : p.1 = k
      · rw [if_pos hp] at hnone
        simp at hnone
      · rw [if_neg hp] at hnone
        rw [assocFind_append, hnone]
        simp [assocFind]
  · rw [if_neg hev]
    rw [assocFind_append, assocFind_eraseAll]
    simp [assocFind]

theorem put_keys_subset (c : LRU κ β) (k : κ) (v : β) :
    ∀ a ∈ keysOf (c.put k v).entries, a ∈ keysOf c.entries ∨ a = k := by
  intro a ha
  have ha2 : a ∈ keysOf (assocEraseAll k c.entries ++ [(k, v)]) :=
    ((put_sublist c k v).map Prod.fst).subset ha
  rw [keysOf_append, List.mem_append] at ha2
  rcases ha2 with h | h
  · left
    exact ((List.filter_sublist _).map Prod.fst).subset h
  · right
    simpa [keysOf] using h

theorem put_nodup (c : LRU κ β) (k : κ) (v : β)
    (h : (keysOf c.entries).Nodup) : (keysOf (c.put k v).entries).Nodup := by
  have hes : (keysOf (assocEraseAll k c.entries ++ [(k, v)])).Nodup := by
    rw [keysOf_append]
    refine List.Nodup.append ?_ (List.nodup_singleton k) ?_
    · exact ((List.filter_sublist _).map Prod.fst).nodup h
    · intro a ha hb
      simp only [keysOf, List.map_cons, List.map_nil, List.mem_singleton] at hb
      subst hb
      exact (assocFind_eq_none_iff.mp assocFind_eraseAll) ha
  exact hes.sublist ((put_sublist c k v).map Prod.fst)

theorem put_length_le (c : LRU κ β) (k : κ) (v : β)
    (hcap : 0 < c.cap) (hle : c.entries.length ≤ c.cap) :
    ((c.put k v).entries).length ≤ c.cap := by
  simp only [LRU.put]
  have hlee : (assocEraseAll k c.entries).length ≤ c.entries.length :=
    length_eraseAll_le k c.entries
  by_cases hev : 0 < c.cap ∧ c.cap < (assocEraseAll k c.entries ++ [(k, v)]).length
  · rw [if_pos hev]
    rw [List.length_tail, List.length_append]
    simp only [List.length_cons, List.length_nil]
    omega
  · rw [if_neg hev]
    push_neg at hev
    have := hev hcap
    omega

theorem getOrCreate_cap (c : LRU κ β) (k : κ) (fresh : β) :
    ((c.getOrCreate k fresh).2).cap = c.cap := by
  simp only [LRU.getOrCreate]
  cases hf : assocFind k c.entries <;> rfl

theorem getOrCreate_found (hf : assocFind k c.entries = some b) :
    c.getOrCreate k fresh = (b, c.put k b) := by
  simp only [LRU.getOrCreate]
  rw [hf]

theorem getOrCreate_new (hf : assocFind k c.entries = none) :
    c.getOrCreate k fresh = (fresh, c.put k fresh) := by
  simp only [LRU.getOrCreate]
  rw [hf]

theorem getOrCreate_lookup_self (c : LRU κ β) (k : κ) (fresh : β) (hcap : 0 < c.cap) :
    ((c.getOrCreate k fresh).2).lookup k = some (c.getOrCreate k fresh).1 := by
  cases hf : assocFind k c.entries with
  | some b =>
    rw [getOrCreate_found hf]
    exact put_lookup_self c k b hcap
  | none =>
    rw [getOrCreate_new hf]
    exact put_lookup_self c k fresh hcap

theorem getOrCreate_length_le (c : LRU κ β) (k : κ) (fresh : β)
    (hcap : 0 < c.cap) (hle : c.entries.length ≤ c.cap) :
    (((c.getOrCreate k fresh).2).entries).length ≤ c.cap := by
  cases hf : assocFind k c.entries with
  | some b =>
    rw [getOrCreate_found hf]
    exact put_length_le c k b hcap hle
  | none =>
    rw [getOrCreate_new hf]
    exact put_length_le c k fresh hcap hle

theorem getOrCreate_keys_subset (c : LRU κ β) (k : κ) (fresh : β) :
    ∀ a ∈ keysOf ((c.getOrCreate k fresh).2).entries, a ∈ keysOf c.entries ∨ a = k := by
  cases hf : assocFind k c.entries with
  | some b =>
    rw [getOrCreate_found hf]
    exact put_keys_subset c k b
  | none =>
    rw [getOrCreate_new hf]
    exact put_keys_subset c k fresh

theorem getOrCreate_nodup (c : LRU κ β) (k : κ) (fresh : β)
    (h : (keysOf c.entries).Nodup) :
    (keysOf ((c.getOrCreate k fresh).2).entries).Nodup := by
  cases hf : assocFind k c.entries with
  | some b =>
    rw [getOrCreate_found hf]
    exact put_nodup c k b h
  | none =>
    rw [getOrCreate_new hf]
    exact put_nodup c k fresh h

theorem getOrCreate_length_new (c : LRU κ β) (k : κ) (fresh : β)
    (hk : k ∉ keysOf c.entries) (hcap : 0 < c.cap) (hle : c.entries.length ≤ c.cap) :
    (((c.getOrCreate k fresh).2).entries).length =
      min (c.entries.length + 1) c.cap := by
  rw [getOrCreate_new (assocFind_eq_none_iff.mpr hk)]
  simp only [LRU.put]
  rw [assocEraseAll_of_not_mem hk]
  by_cases hev : 0 < c.cap ∧ c.cap < (c.entries ++ [(k, fresh)]).length
  · rw [if_pos hev]
    rw [List.length_tail, List.length_append]
    rw [List.length_append] at hev
    simp only [List.length_cons, List.length_nil] at hev ⊢
    omega
  · rw [if_neg hev]
    push_neg at hev
    have := hev hcap
    rw [List.length_append] at this ⊢
    simp only [List.length_cons, List.length_nil] at this ⊢
    omega

theorem getOrCreate_length_found (c : LRU κ β) (k : κ) (fresh : β)
    (hnodup : (keysOf c.entries).Nodup) (hle : c.entries.length ≤ c.cap)
    (hf : assocFind k c.entries = some b) :
    (((c.getOrCreate k fresh).2).entries).length = c.entries.length ∧
      (c.getOrCreate k fresh).1 = b := by
  rw [getOrCreate_found hf]
  refine ⟨?_, rfl⟩
  simp only [LRU.put]
  have hmem : k ∈ keysOf c.entries := mem_keysOf_of_find_some hf
  have hlen := length_eraseAll_of_mem (k := k) hnodup hmem
  have hes : (assocEraseAll k c.entries ++ [(k, b)]).length = c.entries.length := by
    rw [List.length_append]
    simp only [List.length_cons, List.length_nil]
    omega
  rw [if_neg ?_]
  · exact hes
  · rw [hes]
    intro hcon
    omega

theorem fillLRU_cons (fresh : β) (c : LRU κ β) (k : κ) (t : List κ) :
    fillLRU fresh c (k :: t) = fillLRU fresh ((c.getOrCreate k fresh).2) t := rfl

theorem fillLRU_length (fresh : β) :
    ∀ (ks : List κ) (c : LRU κ β), 0 < c.cap → ks.Nodup →
      (∀ k ∈ ks, k ∉ keysOf c.entries) → c.entries.length ≤ c.cap →
      ((fillLRU fresh c ks).entries).length = min (c.entries.length + ks.length) c.cap := by
  intro ks
  induction ks with
  | nil =>
    intro c hcap _ _ hle
    simp only [fillLRU, List.foldl_nil, List.length_nil]
    omega
  | cons k t ih =>
    intro c hcap hnodup habs hle
    rw [fillLRU_cons]
    rw [List.nodup_cons] at hnodup
    have hk : k ∉ keysOf c.entries := habs k (List.mem_cons_self _ _)
    have hlen1 := getOrCreate_length_new c k fresh hk hcap hle
    have hcap1 : 0 < ((c.getOrCreate k fresh).2).cap := by
      rw [getOrCreate_cap]
      exact hcap
    have habs1 : ∀ k' ∈ t, k' ∉ keysOf ((c.getOrCreate k fresh).2).entries := by
      intro k' hk' hmem
      rcases getOrCreate_keys_subset c k fresh k' hmem with h | h
      · exact habs k' (List.mem_cons_of_mem _ hk') h
      · exact hnodup.1 (h ▸ hk')
    have hle1 : ((c.getOrCreate k fresh).2).entries.length ≤ ((c.getOrCreate k fresh).2).cap := by
      rw [getOrCreate_cap]
      exact getOrCreate_length_le c k fresh hcap hle
    have := ih ((c.getOrCreate k fresh).2) hcap1 hnodup.2 habs1 hle1
    rw [this, hlen1, getOrCreate_cap]
    simp only [List.length_cons]
    omega

end LRULemmas

/-! ## Claim C8 -/

/-- Claim C8: the Resource Aggregation Cache respects its capacity after every
ingestion; inserting more distinct fingerprints than the capacity leaves the
size exactly at capacity; when a new fingerprint evicts, the evicted scope is
the least-recently-touched (first) entry; and two resources with equal
fingerprints under the allow-list share one aggregation scope and create no
additional cache entry. -/
theorem resourceCacheBound (cap : Nat) (hcap : 0 < cap)
    (fps : List (List (String × String))) (hnd : fps.Nodup) (hover : cap < fps.length)
    (c : LRU (List (String × String)) ScopeState)
    (hcnd : (keysOf c.entries).Nodup) (hcle : c.entries.length ≤ c.cap)
    (hccap : 0 < c.cap) (allowList : List String) (r1 r2 : List (String × String))
    (hfp : fingerprint allowList r1 = fingerprint allowList r2) :
    (∀ (c' : LRU (List (String × String)) ScopeState) (k : List (String × String)),
      0 < c'.cap → c'.entries.length ≤ c'.cap →
      (((c'.getOrCreate k emptyScope).2).entries).length ≤ c'.cap) ∧
    ((fillLRU emptyScope (emptyLRU (List (String × String)) ScopeState cap) fps).entries).length =
      cap ∧
    (∀ (c' : LRU (List (String × String)) ScopeState) (k : List (String × String)),
      0 < c'.cap → c'.entries.length = c'.cap → k ∉ keysOf c'.entries →
      keysOf ((c'.getOrCreate k emptyScope).2).entries = (keysOf c'.entries).tail ++ [k]) ∧
    ((getOrCreateScope c allowList r1).2).lookup (fingerprint allowList r2) =
      some (getOrCreateScope c allowList r1).1 ∧
    (getOrCreateScope ((getOrCreateScope c allowList r1).2) allowList r2).1 =
      (getOrCreateScope c allowList r1).1 ∧
    (((getOrCreateScope ((getOrCreateScope c allowList r1).2) allowList r2).2).entries).length =
      (((getOrCreateScope c allowList r1).2).entries).length := by
  have hbound : ∀ (c' : LRU (List (String × String)) ScopeState) (k : List (String × String)),
      0 < c'.cap → c'.entries.length ≤ c'.cap →
      (((c'.getOrCreate k emptyScope).2).entries).length ≤ c'.cap := by
    intro c' k h1 h2
    exact getOrCreate_length_le c' k emptyScope h1 h2
  have hfill : ((fillLRU emptyScope
      (emptyLRU (List (String × String)) ScopeState cap) fps).entries).length = cap := by
    rw [fillLRU_length emptyScope fps (emptyLRU (List (String × String)) ScopeState cap)
      hcap hnd (by intro k _ hk; simp [emptyLRU, keysOf] at hk) (by simp [emptyLRU])]
    simp only [emptyLRU]
    simp only [List.length_nil]
    omega
  have hevict : ∀ (c' : LRU (List (String × String)) ScopeState) (k : List (String × String)),
      0 < c'.cap → c'.entries.length = c'.cap → k ∉ keysOf c'.entries →
      keysOf ((c'.getOrCreate k emptyScope).2).entries = (keysOf c'.entries).tail ++ [k] := by
    intro c' k h1 h2 h3
    rw [getOrCreate_new (assocFind_eq_none_iff.mpr h3)]
    simp only [LRU.put]
    rw [assocEraseAll_of_not_mem h3]
    rw [if_pos ?_]
    · cases hE : c'.entries with
      | nil =>
        exfalso
        rw [hE] at h2
        simp at h2
        omega
      | cons p rest =>
        simp only [List.cons_append, List.tail_cons, keysOf_append, keysOf_cons]
        rfl
    · constructor
      · exact h1
      · rw [List.length_append, h2]
        simp
  have hlk : ((getOrCreateScope c allowList r1).2).lookup (fingerprint allowList r2) =
      some (getOrCreateScope c allowList r1).1 := by
    simp only [getOrCreateScope]
    rw [← hfp]
    exact getOrCreate_lookup_self c (fingerprint allowList r1) emptyScope hccap
  have hfound : assocFind (fingerprint allowList r2)
      (((getOrCreateScope c allowList r1).2).entries) =
      some (getOrCreateScope c allowList r1).1 := hlk
  refine ⟨hbound, hfill, hevict, hlk, ?_, ?_⟩
  · show ((((getOrCreateScope c allowList r1).2)).getOrCreate (fingerprint allowList r2)
      emptyScope).1 = _
    rw [getOrCreate_found hfound]
  · have hnd1 : (keysOf (((getOrCreateScope c allowList r1).2)).entries).Nodup :=
      getOrCreate_nodup c (fingerprint allowList r1) emptyScope hcnd
    have hle1 : (((getOrCreateScope c allowList r1).2)).entries.length ≤
        (((getOrCreateScope c allowList r1).2)).cap := by
      simp only [getOrCreateScope]
      rw [getOrCreate_cap]
      exact getOrCreate_length_le c (fingerprint allowList r1) emptyScope hccap hcle
    exact (getOrCreate_length_found ((getOrCreateScope c allowList r1).2)
      (fingerprint allowList r2) emptyScope hnd1 hle1 hfound).1

/-- Claim C8 (witness): capacity 2, three distinct fingerprints, and two
resources sharing the "service.name" fingerprint under an allow-list. -/
theorem resourceCacheBound_witness :
    (0 < 2 ∧ exFps.Nodup ∧ 2 < exFps.length ∧
      (keysOf (emptyLRU (List (String × String)) ScopeState 2).entries).Nodup ∧
      (emptyLRU (List (String × String)) ScopeState 2).entries.length ≤
        (emptyLRU (List (String × String)) ScopeState 2).cap ∧
      0 < (emptyLRU (List (String × String)) ScopeState 2).cap ∧
      fingerprint ["service.name"] exRes1 = fingerprint ["service.name"] exRes2) ∧
    (((fillLRU emptyScope (emptyLRU (List (String × String)) ScopeState 2) exFps).entries).length =
      2 ∧
    ((getOrCreateScope (emptyLRU (List (String × String)) ScopeState 2)
        ["service.name"] exRes1).2).lookup (fingerprint ["service.name"] exRes2) =
      some (getOrCreateScope (emptyLRU (List (String × String)) ScopeState 2)
        ["service.name"] exRes1).1) :=
  ⟨⟨by decide, by decide, by decide, by decide, by decide, by decide, by decide⟩,
   (resourceCacheBound 2 (by decide) exFps (by decide) (by decide)
      (emptyLRU (List (String × String)) ScopeState 2) (by decide) (by decide)
      (by decide) ["service.name"] exRes1 exRes2 (by decide)).2.1,
   (resourceCacheBound 2 (by decide) exFps (by decide) (by decide)
      (emptyLRU (List (String × String)) ScopeState 2) (by decide) (by decide)
      (by decide) ["service.name"] exRes1 exRes2 (by decide)).2.2.2.1⟩

/-! ## Claim C6 -/

/-- Claim C6: cumulative data points keep a stable start timestamp (the scope's
creation-or-last-reset time) across flush cycles with the current time as
timestamp; delta windows are contiguous — window N's start equals window N-1's
end for the same key — unless the key's entry was evicted from the bounded
Delta Timestamp Cache, in which case the next window starts at the current
time, strictly greater than the previous window's end. -/
theorem timestampContinuity (s : CumulativeScope) (t0 t1 t2 : Nat) (h12 : t1 < t2)
    (cache : LRU String Nat) (hcap : 0 < cache.cap) (k : String)
    (c2 : LRU String Nat) :
    (flushCumulativePoint (mkCumulativeScope t0) t1).1 = (t0, t1) ∧
    (flushCumulativePoint s t1).1.1 = (flushCumulativePoint s t2).1.1 ∧
    (flushCumulativePoint s t1).2 = s ∧
    (flushDeltaPoint (flushDeltaPoint cache k t1).2 k t2).1.1 =
      (flushDeltaPoint cache k t1).1.2 ∧
    (c2.lookup k = some t1 → (flushDeltaPoint c2 k t2).1.1 = t1) ∧
    (c2.lookup k = none →
      (flushDeltaPoint c2 k t2).1.1 = t2 ∧
      (flushDeltaPoint cache k t1).1.2 < (flushDeltaPoint c2 k t2).1.1) := by
  refine ⟨rfl, rfl, rfl, ?_, ?_, ?_⟩
  · show (((flushDeltaPoint cache k t1).2).lookup k).getD t2 = t1
    have h2 : (flushDeltaPoint cache k t1).2 = cache.put k t1 := rfl
    rw [h2, put_lookup_self cache k t1 hcap]
    rfl
  · intro h
    show ((c2.lookup k).getD t2) = t1
    rw [h]
    rfl
  · intro h
    constructor
    · show ((c2.lookup k).getD t2) = t2
      rw [h]
      rfl
    · show t1 < ((c2.lookup k).getD t2)
      rw [h]
      exact h12

/-- Claim C6 (witness): scope created at 5, flushes at 10 and 20, delta cache
of capacity 1; an empty cache plays the role of the evicted entry. -/
theorem timestampContinuity_witness :
    10 < 20 ∧ 0 < (emptyLRU String Nat 1).cap ∧
    ((flushCumulativePoint (mkCumulativeScope 5) 10).1 = (5, 10) ∧
    (flushCumulativePoint (mkCumulativeScope 5) 10).1.1 =
      (flushCumulativePoint (mkCumulativeScope 5) 20).1.1 ∧
    (flushCumulativePoint (mkCumulativeScope 5) 10).2 = mkCumulativeScope 5 ∧
    (flushDeltaPoint (flushDeltaPoint (emptyLRU String Nat 1) "a" 10).2 "a" 20).1.1 =
      (flushDeltaPoint (emptyLRU String Nat 1) "a" 10).1.2 ∧
    ((emptyLRU String Nat 1).lookup "a" = some 10 →
      (flushDeltaPoint (emptyLRU String Nat 1) "a" 20).1.1 = 10) ∧
    ((emptyLRU String Nat 1).lookup "a" = none →
      (flushDeltaPoint (emptyLRU String Nat 1) "a" 20).1.1 = 20 ∧
      (flushDeltaPoint (emptyLRU String Nat 1) "a" 10).1.2 <
        (flushDeltaPoint (emptyLRU String Nat 1) "a" 20).1.1)) :=
  ⟨by decide, by decide,
   timestampContinuity (mkCumulativeScope 5) 5 10 20 (by decide)
     (emptyLRU String Nat 1) (by decide) "a" (emptyLRU String Nat 1)⟩

end OtelContrib
